import Mathlib

/-!
Verification of the dependency-aware orchestration engine of the `ai-pilot`
repository: a shallow embedding of the scheduling core
(`agents/supervisor/orchestrator.py`, `agents/supervisor/decomposer.py`,
`agents/base/cache.py`, `agents/base/base.py`) together with proofs of the
spec's claims about it.

Modelling conventions:
* Python dicts become association lists; a dict update conses the new binding
  in front (lookup takes the first match, so the latest write wins) or, where
  the dict's iteration order matters (the cache's `OrderedDict`, the level
  grouping), the insertion order is modelled explicitly.
* `float` time stamps and confidence scores become `ℚ`.
* The injected asynchronous unit-of-work executor (`agent.execute`, the LLM
  call) becomes an explicit function argument `TaskRequest → TaskResponse`;
  the nondeterministic completion order of the worker pool becomes an
  explicit completion-order argument.
* `TaskRequest.constraints["dependencies"]` is the `dependencies` field;
  the `data` dict is split into its opaque original fields (`data`) and the
  `"dependency_results"` key the engine writes (`dependency_results`).
  Opaque result payloads become `Option String`.
-/

set_option maxHeartbeats 1000000

namespace AiPilot

/-- `TaskStatus` from `agents/base/model.py` (`partResult` models `PARTIAL`). -/
inductive TaskStatus where
  | pending
  | running
  | complete
  | partResult
  | failed
deriving DecidableEq, Repr

/-- `ExecutionStrategy` from `agents/base/model.py`. -/
inductive ExecutionStrategy where
  | sequential
  | parallel
  | consensus
deriving DecidableEq, Repr

/-- Entries of the `metadata` dict of a `TaskResponse`, restricted to the keys
the orchestration core writes (`attempted_agents`, `consensus`, and the
agent/capability info written by `StatelessSubAgent.execute`). -/
inductive MetaEntry where
  | attemptedAgents (n : Nat)
  | consensus (totalAgents successfulAgents : Nat) (confidenceScores : List ℚ)
  | agentInfo (agent capability : String)
deriving DecidableEq, Repr

/-- `TaskRequest` from `agents/base/model.py`, restricted to the fields the
scheduling core reads. `dependencies` stands for
`constraints.get("dependencies", [])`; `dependency_results` stands for the
`data["dependency_results"]` entry written by the engine (absent before
enrichment); `data` holds the remaining, opaque payload fields. -/
structure TaskRequest where
  task_id : String
  task_type : String
  objective : String
  data : Option (List (String × String)) := none
  dependency_results : Option (List (String × Option String)) := none
  dependencies : List String := []
deriving DecidableEq, Repr

/-- `TaskResponse` from `agents/base/model.py`, restricted to the fields the
scheduling core reads or writes. `result` is the opaque result payload. -/
structure TaskResponse where
  task_id : String
  status : TaskStatus
  result : Option String := none
  error : Option String := none
  error_type : Option String := none
  confidence : ℚ := 1
  metadata : List MetaEntry := []
deriving DecidableEq, Repr

/-- A worker (a `StatelessSubAgent` as the orchestrator sees it): the injected
asynchronous `execute` capability, made an explicit function. -/
structure Agent where
  name : String
  execute : TaskRequest → TaskResponse

/-- First-match association-list lookup: the read operation of a Python dict
(bindings are consed in front on update, so the first match is the latest
write). -/
def lookupAssoc {κ α : Type} [DecidableEq κ] (key : κ) (m : List (κ × α)) : Option α :=
  (m.find? (fun p => decide (p.fst = key))).map Prod.snd

/-- `key in dict`. -/
def containsKey {κ α : Type} [DecidableEq κ] (key : κ) (m : List (κ × α)) : Bool :=
  m.any (fun p => decide (p.fst = key))

/-! ### `OrchestrationEngine.execute_sequential` (orchestrator.py lines 24-87) -/

/-- The dependency-data enrichment of `execute_sequential` (lines 49-58):
when the task has dependencies and some results have accumulated, write
`data["dependency_results"] = {dep: task_results.get(dep) for dep in
dependencies if dep in task_results}` (a dict comprehension: keys in first
occurrence order). -/
def seqEnrich (task : TaskRequest) (taskResults : List (String × Option String)) :
    TaskRequest :=
  if task.dependencies.isEmpty || taskResults.isEmpty then task
  else
    let dependencyData := task.dependencies.eraseDups.filterMap (fun dep =>
      (lookupAssoc dep taskResults).map (fun v => (dep, v)))
    { task with dependency_results := some dependencyData }

/-- Loop body of `execute_sequential` (lines 35-85): walk the tasks in input
order, halt (`break`) on an unsatisfied dependency without a response for
that task, run the task otherwise, record completion by `task.objective`,
and halt right after recording a `failed` response.  `exec` stands for
`self._select_agent(task, agents).execute(task)`. -/
def executeSequentialGo (exec : TaskRequest → TaskResponse) :
    List TaskRequest → List String → List (String × Option String) → List TaskResponse
  | [], _, _ => []
  | task :: rest, completed, taskResults =>
    let unsatisfied := task.dependencies.filter (fun dep => !completed.contains dep)
    if !unsatisfied.isEmpty then []
    else
      let response := exec (seqEnrich task taskResults)
      let completed' :=
        if response.status = .complete then task.objective :: completed else completed
      let taskResults' :=
        if response.status = .complete then (task.objective, response.result) :: taskResults
        else taskResults
      if response.status = .failed then [response]
      else response :: executeSequentialGo exec rest completed' taskResults'

/-- `OrchestrationEngine.execute_sequential`. -/
def executeSequential (exec : TaskRequest → TaskResponse) (tasks : List TaskRequest) :
    List TaskResponse :=
  executeSequentialGo exec tasks [] []

/-! ### `OrchestrationEngine._group_by_dependency_level` (orchestrator.py lines 313-342) -/

/-- Building the `task_deps` / `task_map` dicts keyed by `task.objective`
(lines 317-322): both dicts are updated together from the same task, so they
are modelled as one dict of tasks; re-assigning an existing key keeps its
position and replaces the stored task. -/
def buildTaskEntries (tasks : List TaskRequest) : List TaskRequest :=
  tasks.foldl (fun acc t =>
    if acc.any (fun u => decide (u.objective = t.objective)) then
      acc.map (fun u => if u.objective = t.objective then t else u)
    else acc ++ [t]) []

/-- One pass of the level-collection loop (lines 328-333): the not yet
assigned entries all of whose dependencies are assigned, in dict insertion
order. -/
def levelStep (entries : List TaskRequest) (assigned : Finset String) :
    List TaskRequest :=
  entries.filter (fun t =>
    decide (t.objective ∉ assigned ∧ ∀ dep ∈ t.dependencies, dep ∈ assigned))

/-- The `while len(assigned) < len(tasks)` loop (lines 327-341), with explicit
fuel.  Each productive iteration assigns at least one new objective, so
`tasks.length + 1` units of fuel (as supplied by `groupByDependencyLevel`)
are never exhausted before the loop's own exit conditions fire. -/
def levelizeGo (entries : List TaskRequest) (ntasks : Nat) :
    Nat → Finset String → List (List TaskRequest)
  | 0, _ => []
  | fuel + 1, assigned =>
    if assigned.card < ntasks then
      let cur := levelStep entries assigned
      if cur.isEmpty then []
      else cur :: levelizeGo entries ntasks fuel
        (assigned ∪ (cur.map TaskRequest.objective).toFinset)
    else []

/-- `OrchestrationEngine._group_by_dependency_level`. -/
def groupByDependencyLevel (tasks : List TaskRequest) : List (List TaskRequest) :=
  levelizeGo (buildTaskEntries tasks) tasks.length (tasks.length + 1) ∅

/-! ### `OrchestrationEngine._execute_with_worker_pool` (orchestrator.py lines 168-278) -/

/-- The worker pool: all tasks are enqueued up front, a bounded set of workers
drains the queue in some interleaving, and each executed task stores
`(task, response)` into the `results` dict keyed by `task.task_id` (the
latest write wins).  The results are then returned in original input order,
with a `failed` `MissingResultError` response for any input task whose id is
absent from `results`.  `order` is the completion order in which the workers
finish the tasks (any interleaving of the level); a worker exception is
already absorbed into `exec` (it is converted to a `failed` response inside
the worker, lines 211-230). -/
def workerPoolRun (exec : TaskRequest → TaskResponse) (tasks : List TaskRequest)
    (order : List TaskRequest) : List (TaskRequest × TaskResponse) :=
  let results := order.foldl (fun m t => (t.task_id, (t, exec t)) :: m) []
  tasks.map (fun t =>
    match lookupAssoc t.task_id results with
    | some pr => pr
    | none =>
      (t, { task_id := t.task_id, status := .failed,
            error := some "Task result not found after execution",
            error_type := some "MissingResultError" }))

/-! ### `OrchestrationEngine.execute_parallel` (orchestrator.py lines 89-166) -/

/-- Per-level task preparation (lines 120-151): returns the short-circuited
`failed` responses (appended to `all_responses` during the loop) and the
prepared tasks handed to the worker pool, both in level order.  Note the
source guard `if dependencies and completed_results:`—when `completed_results`
is empty the missing-dependency check is skipped entirely and the task is
prepared unenriched. -/
def parallelPrep (completedResults : List (String × Option String)) :
    List TaskRequest → List TaskResponse × List TaskRequest
  | [] => ([], [])
  | task :: rest =>
    let (rs, ps) := parallelPrep completedResults rest
    if task.dependencies.isEmpty || completedResults.isEmpty then
      (rs, task :: ps)
    else
      let dependencyData := task.dependencies.eraseDups.filterMap (fun dep =>
        (lookupAssoc dep completedResults).map (fun v => (dep, v)))
      let missing := task.dependencies.filter (fun dep =>
        !containsKey dep completedResults)
      if !missing.isEmpty then
        ({ task_id := task.task_id, status := .failed,
           error := some ("Missing dependency data: " ++ String.intercalate ", " missing),
           error_type := some "DependencyError" } :: rs, ps)
      else
        (rs, { task with dependency_results := some dependencyData } :: ps)

/-- One iteration of the per-level loop of `execute_parallel` (lines 113-164):
prepare the level, skip the pool when nothing is prepared (`continue`), else
run the pool and fold completed results into `completed_results`. -/
def runLevel (exec : TaskRequest → TaskResponse)
    (completion : List TaskRequest → List TaskRequest)
    (acc : List TaskResponse × List (String × Option String))
    (level : List TaskRequest) :
    List TaskResponse × List (String × Option String) :=
  let prep := parallelPrep acc.2 level
  if prep.2.isEmpty then (acc.1 ++ prep.1, acc.2)
  else
    let pool := workerPoolRun exec prep.2 (completion prep.2)
    (acc.1 ++ prep.1 ++ pool.map Prod.snd,
     pool.foldl (fun m p =>
       if p.2.status = .complete then (p.1.objective, p.2.result) :: m else m) acc.2)

/-- `OrchestrationEngine.execute_parallel`.  `completion` gives, for each
prepared level, the order in which the pool's workers happen to finish it. -/
def executeParallel (exec : TaskRequest → TaskResponse)
    (completion : List TaskRequest → List TaskRequest)
    (tasks : List TaskRequest) : List TaskResponse :=
  if tasks.isEmpty then []
  else ((groupByDependencyLevel tasks).foldl (runLevel exec completion) ([], [])).1

/-! ### `OrchestrationEngine.execute_consensus` (orchestrator.py lines 280-311) -/

/-- Python's `max(successful, key=lambda r: r.confidence)`: scan left to
right, replacing the candidate only on a strictly larger key, so the first
maximal element wins. -/
def maxByConfidence (first : TaskResponse) (rest : List TaskResponse) : TaskResponse :=
  rest.foldl (fun best r => if best.confidence < r.confidence then r else best) first

/-- `best_response.metadata["consensus"] = ...` (dict write: replace an
existing `consensus` entry in place, else append). -/
def setConsensusMeta (md : List MetaEntry) (e : MetaEntry) : List MetaEntry :=
  if md.any (fun x => match x with | .consensus _ _ _ => true | _ => false) then
    md.map (fun x => match x with | .consensus _ _ _ => e | _ => x)
  else md ++ [e]

/-- The annotation step `best_response.metadata["consensus"] = {...}` applied
to a response. -/
def withConsensusMeta (r : TaskResponse) (totalAgents successfulAgents : Nat)
    (confidenceScores : List ℚ) : TaskResponse :=
  let entry := MetaEntry.consensus totalAgents successfulAgents confidenceScores
  { r with metadata := setConsensusMeta r.metadata entry }

/-- `OrchestrationEngine.execute_consensus`: run the task through every agent
(`asyncio.gather` keeps the agent list order), keep the `complete` responses,
fail with "No agents succeeded" when there are none, else return the most
confident response annotated with the consensus metadata. -/
def executeConsensus (task : TaskRequest) (agents : List Agent) : TaskResponse :=
  let responses := agents.map (fun a => a.execute task)
  let successful := responses.filter (fun r => decide (r.status = .complete))
  match successful with
  | [] =>
    { task_id := task.task_id, status := .failed,
      error := some "No agents succeeded",
      metadata := [.attemptedAgents agents.length] }
  | first :: rest =>
    withConsensusMeta (maxByConfidence first rest) agents.length successful.length
      (successful.map TaskResponse.confidence)

/-! ### `TaskDecomposer` (decomposer.py) -/

/-- A dependency graph: the JSON dict `objective -> list of prerequisite
objectives`. -/
abbrev Graph := List (String × List String)

/-- `dependency_graph.get(node, [])`. -/
def depsOf (g : Graph) (node : String) : List String :=
  (lookupAssoc node g).getD []

/-- A single dependency edge: `b` is a declared prerequisite of `a`. -/
def EdgeG (g : Graph) (a b : String) : Prop :=
  b ∈ depsOf g a

instance (g : Graph) (a b : String) : Decidable (EdgeG g a b) := by
  unfold EdgeG; infer_instance

/-- Reachability along dependency edges (zero or more steps). -/
def ReachG (g : Graph) : String → String → Prop :=
  Relation.ReflTransGen (EdgeG g)

/-- The graph contains a (directed) cycle: some node has a prerequisite from
which it is itself reachable. -/
def HasCycleProp (g : Graph) : Prop :=
  ∃ a b, EdgeG g a b ∧ ReachG g b a

/-- The `keys ++ all dependency values` node list whose length bounds the
depth of the recursion in `has_circular_dependencies`. -/
def allNodesList (g : Graph) : List String :=
  g.map Prod.fst ++ (g.map Prod.snd).flatten

/-- All nodes mentioned by the graph, as a finite set. -/
def nodesOf (g : Graph) : Finset String :=
  (allNodesList g).toFinset

mutual

/-- The inner `has_cycle(node, visited, rec_stack)` of
`TaskDecomposer.has_circular_dependencies` (decomposer.py lines 143-157):
return `True` on a back-edge to the recursion stack, skip already-visited
nodes, else mark visited and recurse into `dependency_graph.get(node, [])`
with the node pushed on the stack.  The Python `visited` set is threaded
through as the second component; `rec_stack` is the current call path (its
`remove` on exit is the popping of `node :: recStack`).  The fuel only bounds
the call depth, which never exceeds the number of unvisited nodes plus one;
the top-level entry supplies more than `(allNodesList g).length` units, so
the `0` branch is unreachable. -/
def hasCycleFrom (g : Graph) (fuel : Nat) (node : String)
    (visited recStack : List String) : Bool × List String :=
  match fuel with
  | 0 => (false, visited)
  | fuel' + 1 =>
    if node ∈ recStack then (true, visited)
    else if node ∈ visited then (false, visited)
    else hasCycleDeps g fuel' (depsOf g node) (node :: visited) (node :: recStack)
termination_by (fuel, 0)

/-- The `for dep in dependency_graph.get(node, [])` loop of `has_cycle`:
recurse into each dependency, short-circuiting on the first `True`. -/
def hasCycleDeps (g : Graph) (fuel : Nat) (deps : List String)
    (visited recStack : List String) : Bool × List String :=
  match deps with
  | [] => (false, visited)
  | dep :: rest =>
    match hasCycleFrom g fuel dep visited recStack with
    | (true, visited') => (true, visited')
    | (false, visited') => hasCycleDeps g fuel rest visited' recStack

termination_by (fuel, deps.length + 1)

end

/-- One iteration of the `for node in dependency_graph` loop of
`has_circular_dependencies` (decomposer.py lines 159-163): once a cycle has
been found the remaining iterations are skipped (the Python `return True`
short-circuits), an already-visited key is skipped, and otherwise `has_cycle`
runs from the key with the shared `visited` set and an empty stack. -/
def hasCycleStep (g : Graph) (fuel : Nat) (acc : Bool × List String)
    (node : String) : Bool × List String :=
  if acc.1 then acc
  else if node ∈ acc.2 then acc
  else hasCycleFrom g fuel node acc.2 []

/-- `TaskDecomposer.has_circular_dependencies` (decomposer.py lines 138-164):
run `has_cycle` from every key not yet visited, with a shared `visited` set
and a fresh empty stack, returning `True` as soon as any call does. -/
def hasCircularDependencies (g : Graph) : Bool :=
  let fuel := (allNodesList g).length + 1
  ((g.map Prod.fst).foldl (hasCycleStep g fuel)
    ((false : Bool), ([] : List String))).1

/-- Invariant of the depth-first search of `has_circular_dependencies`: every
finished node (visited but not on the current recursion stack) has all its
dependency edges pointing to finished nodes, and no finished node lies on a
dependency cycle. -/
def DfsInv (g : Graph) (visited recStack : List String) : Prop :=
  ∀ v ∈ visited, v ∉ recStack →
    (∀ w, EdgeG g v w → w ∈ visited ∧ w ∉ recStack) ∧
    ¬ ∃ w, EdgeG g v w ∧ ReachG g w v

/-- Soundness contract of `hasCycleFrom` at a given fuel: with enough fuel, a
node that can reach the recursion stack makes the search return `true`, and a
`false` return extends the visited set while preserving the invariant. -/
def DfsFromSpec (g : Graph) (fuel : Nat) : Prop :=
  ∀ node V st, node ∈ nodesOf g → (nodesOf g \ V.toFinset).card < fuel →
    DfsInv g V st →
    ((∃ s ∈ st, ReachG g node s) → (hasCycleFrom g fuel node V st).1 = true) ∧
    (∀ V2, hasCycleFrom g fuel node V st = (false, V2) →
      DfsInv g V2 st ∧ V ⊆ V2 ∧ node ∈ V2 ∧ node ∉ st)

/-- Soundness contract of the dependency loop `hasCycleDeps` at a given
fuel. -/
def DfsDepsSpec (g : Graph) (fuel : Nat) : Prop :=
  ∀ deps V st, (∀ d ∈ deps, d ∈ nodesOf g) → (nodesOf g \ V.toFinset).card < fuel →
    DfsInv g V st →
    ((∃ d ∈ deps, ∃ s ∈ st, ReachG g d s) → (hasCycleDeps g fuel deps V st).1 = true) ∧
    (∀ V2, hasCycleDeps g fuel deps V st = (false, V2) →
      DfsInv g V2 st ∧ V ⊆ V2 ∧ ∀ d ∈ deps, d ∈ V2 ∧ d ∉ st)

/-- The dependency-graph repair performed inside
`TaskDecomposer.analyze_dependencies` (decomposer.py lines 102-117): add
every objective missing from the graph with an empty prerequisite list
(a dict insert appends the new keys), then drop every prerequisite that is
not itself an objective.  Prerequisites equal to their own key are kept. -/
def analyzeValidate (objectives : List String) (g : Graph) : Graph :=
  let withMissing :=
    g ++ ((objectives.filter (fun o => !containsKey o g)).eraseDups).map
      (fun o => (o, ([] : List String)))
  withMissing.map (fun p => (p.1, p.2.filter (fun dep => objectives.contains dep)))

/-- The circular-dependency fallback of `TaskDecomposer.analyze_dependencies`
(decomposer.py lines 129-136): when the chosen strategy is sequential and the
graph has a cycle, switch to parallel and replace the graph by
`{obj: [] for obj in objectives}`.  This runs while the task list is being
assembled, before any task is handed to the orchestration engine. -/
def applyCycleFallback (strategy : ExecutionStrategy) (objectives : List String)
    (g : Graph) : ExecutionStrategy × Graph :=
  if strategy = .sequential ∧ hasCircularDependencies g then
    (.parallel, objectives.eraseDups.map (fun o => (o, ([] : List String))))
  else (strategy, g)

/-- `TaskDecomposer._validate_dependency_graph` (decomposer.py lines 166-188):
rebuild the graph keyed by the objectives, dropping prerequisites that are
not objectives and prerequisites equal to their own key
(`dep != obj  # prevent self-dependency`). -/
def validateDependencyGraph (objectives : List String) (g : Graph) : Graph :=
  objectives.eraseDups.map (fun obj =>
    match lookupAssoc obj g with
    | some deps =>
      (obj, deps.filter (fun dep => objectives.contains dep && !(dep == obj)))
    | none => (obj, ([] : List String)))

/-! ### `TaskCache` (agents/base/cache.py) -/

/-- `json.dumps(request.data, sort_keys=True)`: the payload dict with its
keys put in sorted order, so that structurally equal payloads canonicalize
identically. -/
def canonicalData (d : Option (List (String × String))) :
    Option (List (String × String)) :=
  d.map (List.insertionSort (fun a b => a.fst ≤ b.fst))

/-- The cache key of `TaskCache._generate_key`: a deterministic fingerprint
of `task_type`, `objective` and the canonicalized payload (the sha256 hex
digest is modelled by the fingerprinted content itself; `task_id` is not part
of it). -/
structure CacheKey where
  task_type : String
  objective : String
  data : Option (List (String × String))
  dependency_results : Option (List (String × Option String))
deriving DecidableEq, Repr

/-- `TaskCache._generate_key`. -/
def generateKey (r : TaskRequest) : CacheKey :=
  ⟨r.task_type, r.objective, canonicalData r.data, r.dependency_results⟩

/-- A cache slot: the stored response and its insertion timestamp. -/
structure CacheEntry where
  response : TaskResponse
  timestamp : ℚ
deriving DecidableEq, Repr

/-- `TaskCache`: the `OrderedDict` (front = least recently used, back = most
recently used) plus its limits.  `sizeOfFn` stands for
`sys.getsizeof(self._cache)`, the platform-dependent memory estimate. -/
structure TaskCache where
  entries : List (CacheKey × CacheEntry)
  ttl_seconds : ℚ
  max_items : Nat
  max_memory_bytes : Nat
  sizeOfFn : List (CacheKey × CacheEntry) → Nat

/-- The item-count loop of `TaskCache._evict_if_needed`: pop the front
(least recently used) while the dict is over `max_items`. -/
def evictByCount (maxItems : Nat) : List (CacheKey × CacheEntry) →
    List (CacheKey × CacheEntry)
  | [] => []
  | e :: rest =>
    if maxItems < rest.length + 1 then evictByCount maxItems rest else e :: rest

/-- The memory loop of `TaskCache._evict_if_needed`: pop the front while the
estimated footprint exceeds `max_memory_bytes` and the dict is nonempty. -/
def evictByMemory (sizeOfFn : List (CacheKey × CacheEntry) → Nat) (maxBytes : Nat) :
    List (CacheKey × CacheEntry) → List (CacheKey × CacheEntry)
  | [] => []
  | e :: rest =>
    if maxBytes < sizeOfFn (e :: rest) then evictByMemory sizeOfFn maxBytes rest
    else e :: rest

/-- `TaskCache._evict_if_needed`. -/
def TaskCache.evictIfNeeded (c : TaskCache) : TaskCache :=
  { c with entries :=
      evictByMemory c.sizeOfFn c.max_memory_bytes (evictByCount c.max_items c.entries) }

/-- `TaskCache.get` at time `now`: pop the key; if the entry is younger than
`ttl_seconds`, re-append it (most recently used) and return it, else leave
it removed and return nothing. -/
def TaskCache.get (c : TaskCache) (r : TaskRequest) (now : ℚ) :
    Option TaskResponse × TaskCache :=
  let key := generateKey r
  match lookupAssoc key c.entries with
  | none => (none, c)
  | some entry =>
    let rest := c.entries.filter (fun p => !(decide (p.fst = key)))
    if now - entry.timestamp < c.ttl_seconds then
      (some entry.response, { c with entries := rest ++ [(key, entry)] })
    else
      (none, { c with entries := rest })

/-- `TaskCache.set` at time `now`: write the entry (an existing key keeps its
position, a new key is appended at the most-recently-used end), then evict if
needed. -/
def TaskCache.set (c : TaskCache) (r : TaskRequest) (resp : TaskResponse)
    (now : ℚ) : TaskCache :=
  let key := generateKey r
  let entries :=
    if containsKey key c.entries then
      c.entries.map (fun p => if p.fst = key then (key, ⟨resp, now⟩) else p)
    else c.entries ++ [(key, ⟨resp, now⟩)]
  TaskCache.evictIfNeeded { c with entries := entries }

/-! ### `StatelessSubAgent.execute` (agents/base/base.py lines 91-205) -/

/-- The outcome of the opaque LLM invocation plus response parsing and token
accounting (base.py lines 101-170): either the parsed payload with its
confidence, or an exception with its message and type. -/
inductive LlmOutcome where
  | success (result : Option String) (confidence : ℚ)
  | failure (message exceptionType : String)
deriving DecidableEq, Repr

/-- `StatelessSubAgent.execute` at time `now`: return the cached response
unchanged on a cache hit; otherwise run the LLM, build a `complete` response
tagged with the request's `task_id`, cache it and return it, or convert an
exception into a `failed` response (not cached).  `llm` stands for the whole
prompt-build / invoke / parse block; execution traces are observability only
and are not modelled. -/
def statelessExecute (cache : TaskCache) (llm : TaskRequest → LlmOutcome)
    (name capability : String) (request : TaskRequest) (now : ℚ) :
    TaskResponse × TaskCache :=
  match TaskCache.get cache request now with
  | (some cached, cache') => (cached, cache')
  | (none, cache') =>
    match llm request with
    | .success result confidence =>
      let response : TaskResponse :=
        { task_id := request.task_id, status := .complete, result := result,
          confidence := confidence, metadata := [.agentInfo name capability] }
      (response, cache'.set request response now)
    | .failure msg ty =>
      ({ task_id := request.task_id, status := .failed, error := some msg,
         error_type := some ty, metadata := [.agentInfo name capability] },
       cache')

/-! ### Concrete fixtures used by witnesses and counterexamples -/

/-- The spec's end-to-end scenario task `X` (no prerequisites). -/
def reqX : TaskRequest := { task_id := "x", task_type := "research", objective := "X" }

/-- Scenario task `Y`, depending on `X`. -/
def reqY : TaskRequest :=
  { task_id := "y", task_type := "research", objective := "Y", dependencies := ["X"] }

/-- Scenario task `Z`, depending on `X`. -/
def reqZ : TaskRequest :=
  { task_id := "z", task_type := "research", objective := "Z", dependencies := ["X"] }

/-- Task `A` of a two-task dependency cycle. -/
def reqA : TaskRequest :=
  { task_id := "a", task_type := "t", objective := "A", dependencies := ["B"] }

/-- Task `B` of a two-task dependency cycle. -/
def reqB : TaskRequest :=
  { task_id := "b", task_type := "t", objective := "B", dependencies := ["A"] }

/-- A demo executor: task `x` fails with an `ExecutionError`, every other task
completes with the marker payload `"executed"`. -/
def execDemo : TaskRequest → TaskResponse := fun t =>
  if t.task_id = "x" then
    { task_id := t.task_id, status := .failed, error := some "boom",
      error_type := some "ExecutionError" }
  else { task_id := t.task_id, status := .complete, result := some "executed" }

/-- An executor that completes every task. -/
def execOk : TaskRequest → TaskResponse := fun t =>
  { task_id := t.task_id, status := .complete, result := some "ok" }

/-- A consensus worker returning a fixed status and confidence, with its own
name as result payload. -/
def mkAgent (nm : String) (st : TaskStatus) (c : ℚ) : Agent :=
  ⟨nm, fun t => { task_id := t.task_id, status := st, result := some nm, confidence := c }⟩

/-- The spec's consensus scenario: worker 2 fails, workers 1 and 3 succeed
with confidences 0.4 and 0.9. -/
def agentsDemo : List Agent :=
  [mkAgent "w1" .complete (4/10), mkAgent "w2" .failed 1, mkAgent "w3" .complete (9/10)]

/-- A small empty cache with a constant-zero memory estimator. -/
def cacheDemo : TaskCache :=
  { entries := [], ttl_seconds := 3600, max_items := 2, max_memory_bytes := 100,
    sizeOfFn := fun _ => 0 }

/-- An LLM stub that always succeeds. -/
def llmDemo : TaskRequest → LlmOutcome := fun _ => .success (some "r") 1

/-- Worker 1's successful response in the consensus scenario. -/
def respW1 : TaskResponse :=
  { task_id := "x", status := .complete, result := some "w1", confidence := 4/10 }

/-- Worker 3's successful response in the consensus scenario. -/
def respW3 : TaskResponse :=
  { task_id := "x", status := .complete, result := some "w3", confidence := 9/10 }

/-- A second request with the same task type, objective and payload as `reqX`
but a different `task_id`. -/
def reqX2 : TaskRequest := { task_id := "x2", task_type := "research", objective := "X" }

/-- A topological rank for the `X`,`Y`,`Z` scenario graph. -/
def rankDemo : String → Nat := fun s => if s = "X" then 0 else 1

/-- The objectives of completed responses within the executed prefix: the
contents of the `completed_tasks` set of `execute_sequential` after the
returned responses were gathered. -/
def completedPrefix (tasks : List TaskRequest) (rs : List TaskResponse) : List String :=
  ((tasks.zip rs).filter (fun p => decide (p.2.status = .complete))).map
    (fun p => p.1.objective)

/-- The sequential-execution contract (claim C6) for a run started with the
`completed` set already holding `completed`: the responses `rs` are a prefix
of the tasks executed one at a time in input order (pointwise matching
`task_id`s); every task that produced a response had each of its declared
prerequisites in the completed set accumulated before it ran (the initial
`completed` set plus the objectives completed by the strictly earlier
responses) — so a task with an unmet prerequisite is never executed; only the
last response may be `failed` (fail-fast); and when not every task produced a
response, the run halted either because the last response failed, or because
the first unprocessed task has a declared prerequisite that is neither in the
initial `completed` set nor among the objectives completed by the executed
prefix — that unprocessed task contributes no response and nothing after it
ran. -/
def SeqSpec (tasks : List TaskRequest) (completed : List String)
    (rs : List TaskResponse) : Prop :=
  rs.length ≤ tasks.length ∧
  (∀ i (hi : i < rs.length) (hi' : i < tasks.length),
      (rs.get ⟨i, hi⟩).task_id = (tasks.get ⟨i, hi'⟩).task_id) ∧
  (∀ i (hi : i < rs.length) (hi' : i < tasks.length),
      ∀ dep ∈ (tasks.get ⟨i, hi'⟩).dependencies,
        dep ∈ completed ∨ dep ∈ completedPrefix (tasks.take i) (rs.take i)) ∧
  (∀ i (hi : i < rs.length), i + 1 < rs.length → (rs.get ⟨i, hi⟩).status ≠ .failed) ∧
  (rs.length < tasks.length →
    (∃ h : rs ≠ [], (rs.getLast h).status = .failed) ∨
    ∃ hn : rs.length < tasks.length,
      ∃ dep ∈ (tasks.get ⟨rs.length, hn⟩).dependencies,
        dep ∉ completed ∧ dep ∉ completedPrefix tasks rs)

/-! ## Helper lemmas -/

theorem lookupAssoc_cons {κ α : Type} [DecidableEq κ] (k k' : κ) (v : α)
    (m : List (κ × α)) :
    lookupAssoc k ((k', v) :: m) = if k' = k then some v else lookupAssoc k m := by
  by_cases h : k' = k <;> simp [lookupAssoc, List.find?, h]

theorem lookupAssoc_nil {κ α : Type} [DecidableEq κ] (k : κ) :
    lookupAssoc k ([] : List (κ × α)) = none := rfl

theorem containsKey_false_iff {κ α : Type} [DecidableEq κ] (k : κ) (m : List (κ × α)) :
    containsKey k m = false ↔ ∀ p ∈ m, p.fst ≠ k := by
  simp [containsKey]

theorem lookupAssoc_isSome_of_containsKey {κ α : Type} [DecidableEq κ] (k : κ)
    (m : List (κ × α)) (h : containsKey k m = true) :
    ∃ v, lookupAssoc k m = some v := by
  induction m with
  | nil => simp [containsKey] at h
  | cons p rest ih =>
    by_cases hk : p.fst = k
    · exact ⟨p.snd, by simp [lookupAssoc, List.find?, hk]⟩
    · have h' : containsKey k rest = true := by
        simp [containsKey] at h ⊢
        rcases h with h | h
        · exact absurd h hk
        · exact h
      obtain ⟨v, hv⟩ := ih h'
      exact ⟨v, by rw [show p = (p.fst, p.snd) from rfl, lookupAssoc_cons, if_neg hk]; exact hv⟩

theorem lookupAssoc_none_of_not_containsKey {κ α : Type} [DecidableEq κ] (k : κ)
    (m : List (κ × α)) (h : containsKey k m = false) :
    lookupAssoc k m = none := by
  rw [containsKey_false_iff] at h
  have hf : m.find? (fun p => decide (p.fst = k)) = none := by
    rw [List.find?_eq_none]
    intro p hp
    simpa using h p hp
  simp [lookupAssoc, hf]

/-! ## C9 — self-dependency dropping during validation -/

/-- C9, counterexample: the claim states that for every task set and declared
mapping, the validated graph contains no task listing itself as a
prerequisite.  The validation actually performed by
`TaskDecomposer.analyze_dependencies` (its inline repair steps) keeps a
self-referential prerequisite: with objectives `["a"]` and declared mapping
`a -> [a]`, the repaired graph still maps `a` to `[a]`. -/
theorem c9_counterexample :
    "a" ∈ depsOf (analyzeValidate ["a"] [("a", ["a"])]) "a" := by decide

/-- C9, amended: `TaskDecomposer._validate_dependency_graph` does drop every
prerequisite equal to its own task identifier — its output never lets a task
list itself — but the validation inlined in `analyze_dependencies` (the one
executed by the decomposition pipeline) keeps self-referential
prerequisites. -/
theorem c9_validate_drops_self_dependency (objectives : List String) (g : Graph)
    (obj : String) :
    (depsOf (validateDependencyGraph objectives g) obj).contains obj = false := by
  have hself : ∀ l : List String,
      ∀ d ∈ depsOf (l.map (fun o =>
        match lookupAssoc o g with
        | some deps =>
          (o, deps.filter (fun dep => objectives.contains dep && !(dep == o)))
        | none => (o, ([] : List String)))) obj, d ≠ obj := by
    intro l
    induction l with
    | nil => intro d hd; simp [depsOf, lookupAssoc] at hd
    | cons o rest ih =>
      intro d hd
      simp only [List.map_cons] at hd
      cases hlk : lookupAssoc o g with
      | none =>
        rw [hlk] at hd
        unfold depsOf at hd
        rw [lookupAssoc_cons] at hd
        by_cases ho : o = obj
        · simp [ho] at hd
        · rw [if_neg ho] at hd
          exact ih d hd
      | some deps =>
        rw [hlk] at hd
        unfold depsOf at hd
        rw [lookupAssoc_cons] at hd
        by_cases ho : o = obj
        · rw [if_pos ho] at hd
          simp only [Option.getD_some, List.mem_filter, Bool.and_eq_true,
            Bool.not_eq_eq_eq_not, Bool.not_true, beq_eq_false_iff_ne] at hd
          rw [← ho]
          exact hd.2.2
        · rw [if_neg ho] at hd
          exact ih d hd
  have hmem := hself objectives.eraseDups
  rw [List.contains_eq_any_beq, List.any_eq_false]
  intro d hd
  simp only [beq_iff_eq]
  intro hdo
  exact (hmem d (by simpa [validateDependencyGraph] using hd)) hdo.symm

/-! ## C5 — worker pool preserves submission order -/

theorem foldl_cons_eq_reverse_map {α β : Type} (g : α → β) (l : List α)
    (init : List β) :
    l.foldl (fun m u => g u :: m) init = l.reverse.map g ++ init := by
  induction l generalizing init with
  | nil => simp
  | cons u us ih => simp [ih]

theorem lookup_execMap (exec : TaskRequest → TaskResponse) (l : List TaskRequest)
    (t : TaskRequest) (hmem : t ∈ l)
    (hinj : ∀ u ∈ l, u.task_id = t.task_id → u = t) :
    lookupAssoc t.task_id (l.map (fun u => (u.task_id, (u, exec u)))) =
      some (t, exec t) := by
  induction l with
  | nil => cases hmem
  | cons u us ih =>
    by_cases hu : u.task_id = t.task_id
    · have : u = t := hinj u (by simp) hu
      subst this
      simp [lookupAssoc, List.find?]
    · rw [List.map_cons, lookupAssoc_cons, if_neg hu]
      have hmem' : t ∈ us := by
        rcases List.mem_cons.mp hmem with rfl | h
        · exact absurd rfl hu
        · exact h
      exact ih hmem' (fun v hv hvt => hinj v (List.mem_cons_of_mem _ hv) hvt)

/-- C5: whatever order the pool's workers complete the tasks in (any
permutation of the submitted level), the dispatcher returns the
`(task, response)` pairs in the original submission order, each task paired
with its own executor response. -/
theorem c5_pool_preserves_order (exec : TaskRequest → TaskResponse)
    (tasks order : List TaskRequest)
    (hperm : List.Perm order tasks)
    (hids : (tasks.map TaskRequest.task_id).Nodup) :
    workerPoolRun exec tasks order = tasks.map (fun t => (t, exec t)) := by
  unfold workerPoolRun
  rw [foldl_cons_eq_reverse_map]
  apply List.map_congr_left
  intro t ht
  have hinj : ∀ u ∈ order.reverse, u.task_id = t.task_id → u = t := by
    intro u hu hut
    have hu' : u ∈ tasks := hperm.mem_iff.mp (List.mem_reverse.mp hu)
    exact List.inj_on_of_nodup_map hids hu' ht hut
  have hmem : t ∈ order.reverse := List.mem_reverse.mpr (hperm.mem_iff.mpr ht)
  rw [List.append_nil, lookup_execMap exec order.reverse t hmem hinj]

/-- C5 witness: the spec's `[A,B,C]` scenario with completion order `C, A, B`
(played by the tasks `x`, `y`, `z`). -/
theorem c5_pool_preserves_order_witness :
    List.Perm [reqZ, reqX, reqY] [reqX, reqY, reqZ] ∧
    ([reqX, reqY, reqZ].map (fun t => TaskRequest.task_id t)).Nodup ∧
    workerPoolRun execOk [reqX, reqY, reqZ] [reqZ, reqX, reqY] =
      [reqX, reqY, reqZ].map (fun t => (t, execOk t)) :=
  ⟨by decide, by decide,
   c5_pool_preserves_order execOk [reqX, reqY, reqZ] [reqZ, reqX, reqY]
     (by decide) (by decide)⟩

/-! ## C7 — consensus selects the most confident successful response -/

theorem maxByConfidence_cons (first r : TaskResponse) (rest : List TaskResponse) :
    maxByConfidence first (r :: rest) =
      maxByConfidence (if first.confidence < r.confidence then r else first) rest := rfl

theorem maxByConfidence_split (first : TaskResponse) (rest : List TaskResponse) :
    ∃ pre post,
      first :: rest = pre ++ maxByConfidence first rest :: post ∧
      (∀ x ∈ pre, x.confidence < (maxByConfidence first rest).confidence) ∧
      (∀ x ∈ first :: rest, x.confidence ≤ (maxByConfidence first rest).confidence) := by
  induction rest generalizing first with
  | nil =>
    refine ⟨[], [], by simp [maxByConfidence], by simp, ?_⟩
    intro x hx
    simp only [List.mem_singleton] at hx
    simp [hx, maxByConfidence]
  | cons r rs ih =>
    rw [maxByConfidence_cons]
    by_cases hc : first.confidence < r.confidence
    · rw [if_pos hc]
      obtain ⟨pre, post, heq, hpre, hall⟩ := ih r
      refine ⟨first :: pre, post, ?_, ?_, ?_⟩
      · rw [List.cons_append, ← heq]
      · intro x hx
        rcases List.mem_cons.mp hx with rfl | hx'
        · exact lt_of_lt_of_le hc (hall r (by simp))
        · exact hpre x hx'
      · intro x hx
        rcases List.mem_cons.mp hx with rfl | hx'
        · exact le_of_lt (lt_of_lt_of_le hc (hall r (by simp)))
        · exact hall x hx'
    · rw [if_neg hc]
      obtain ⟨pre, post, heq, hpre, hall⟩ := ih first
      cases pre with
      | nil =>
        simp only [List.nil_append] at heq
        injection heq with h1 h2
        refine ⟨[], r :: rs, by rw [List.nil_append, ← h1], by simp, ?_⟩
        intro x hx
        rcases List.mem_cons.mp hx with rfl | hx'
        · exact le_of_eq (congrArg TaskResponse.confidence h1)
        rcases List.mem_cons.mp hx' with rfl | hx''
        · rw [← h1]
          exact le_of_not_lt hc
        · exact hall x (List.mem_cons_of_mem _ hx'')
      | cons p pre' =>
        rw [List.cons_append] at heq
        injection heq with h1 h2
        have hfirstlt : first.confidence < (maxByConfidence first rs).confidence := by
          have hlt := hpre p (List.mem_cons_self p pre')
          rw [← h1] at hlt
          exact hlt
        refine ⟨first :: r :: pre', post, ?_, ?_, ?_⟩
        · rw [List.cons_append, List.cons_append, ← h2]
        · intro x hx
          rcases List.mem_cons.mp hx with rfl | hx'
          · exact hfirstlt
          rcases List.mem_cons.mp hx' with rfl | hx''
          · exact lt_of_le_of_lt (le_of_not_lt hc) hfirstlt
          · exact hpre x (List.mem_cons_of_mem _ hx'')
        · intro x hx
          rcases List.mem_cons.mp hx with rfl | hx'
          · exact le_of_lt hfirstlt
          rcases List.mem_cons.mp hx' with rfl | hx''
          · exact le_trans (le_of_not_lt hc) (le_of_lt hfirstlt)
          · exact hall x (List.mem_cons_of_mem _ hx'')

/-- C7: consensus execution over a worker list.  If no worker response is
`complete`, the run fails with the "no workers succeeded" error and the
attempted-worker count; otherwise the returned response is the successful
response of highest confidence — ties broken by worker list order (every
earlier successful response is strictly less confident) — annotated with the
total worker count, the successful-worker count and all participating
confidence scores. -/
theorem c7_consensus_selects_most_confident (task : TaskRequest) (agents : List Agent) :
    (((agents.map (fun a => a.execute task)).filter
        (fun r => decide (r.status = .complete))) = [] →
      executeConsensus task agents =
        { task_id := task.task_id, status := .failed,
          error := some "No agents succeeded",
          metadata := [.attemptedAgents agents.length] }) ∧
    (∀ first rest,
      ((agents.map (fun a => a.execute task)).filter
        (fun r => decide (r.status = .complete))) = first :: rest →
      ∃ winner pre post,
        first :: rest = pre ++ winner :: post ∧
        (∀ x ∈ pre, x.confidence < winner.confidence) ∧
        (∀ x ∈ first :: rest, x.confidence ≤ winner.confidence) ∧
        executeConsensus task agents =
          withConsensusMeta winner agents.length (first :: rest).length
            ((first :: rest).map TaskResponse.confidence)) := by
  constructor
  · intro hnone
    unfold executeConsensus
    simp only
    rw [hnone]
  · intro first rest hsucc
    obtain ⟨pre, post, heq, hpre, hall⟩ := maxByConfidence_split first rest
    refine ⟨maxByConfidence first rest, pre, post, heq, hpre, hall, ?_⟩
    unfold executeConsensus
    simp only
    rw [hsucc]

/-- C7 witness: three workers where worker 2 fails and workers 1 and 3
succeed with confidences 0.4 and 0.9 — worker 3's response wins, with
`total_agents = 3` and `successful_agents = 2` recorded. -/
theorem c7_consensus_witness :
    ∃ winner pre post,
      respW1 :: [respW3] = pre ++ winner :: post ∧
      (∀ x ∈ pre, x.confidence < winner.confidence) ∧
      (∀ x ∈ respW1 :: [respW3], x.confidence ≤ winner.confidence) ∧
      executeConsensus reqX agentsDemo =
        withConsensusMeta winner agentsDemo.length (respW1 :: [respW3]).length
          ((respW1 :: [respW3]).map TaskResponse.confidence) :=
  (c7_consensus_selects_most_confident reqX agentsDemo).2 respW1 [respW3] rfl


/-! ## C8 — cache TTL round trip -/

attribute [local semireducible] Rat.sub Rat.add Rat.mul Rat.inv

theorem evictByCount_of_le (maxItems : Nat) (l : List (CacheKey × CacheEntry))
    (h : l.length ≤ maxItems) : evictByCount maxItems l = l := by
  cases l with
  | nil => rfl
  | cons e rest =>
    unfold evictByCount
    rw [if_neg]
    simpa using h

theorem evictByMemory_of_le (szf : List (CacheKey × CacheEntry) → Nat) (maxBytes : Nat)
    (l : List (CacheKey × CacheEntry)) (h : szf l ≤ maxBytes) :
    evictByMemory szf maxBytes l = l := by
  cases l with
  | nil => rfl
  | cons e rest =>
    unfold evictByMemory
    rw [if_neg (Nat.not_lt.mpr h)]

theorem lookup_map_update {κ α : Type} [DecidableEq κ] (m : List (κ × α)) (k : κ) (v : α)
    (h : containsKey k m = true) :
    lookupAssoc k (m.map (fun p => if p.fst = k then (k, v) else p)) = some v := by
  induction m with
  | nil => simp [containsKey] at h
  | cons p rest ih =>
    by_cases hk : p.fst = k
    · simp only [List.map_cons, if_pos hk]
      rw [lookupAssoc_cons, if_pos rfl]
    · simp only [List.map_cons, if_neg hk]
      rw [show p = (p.fst, p.snd) from rfl, lookupAssoc_cons, if_neg hk]
      apply ih
      simp only [containsKey, List.any_cons, Bool.or_eq_true, decide_eq_true_eq] at h
      rcases h with h | h
      · exact absurd h hk
      · simpa [containsKey] using h

theorem lookup_append_new {κ α : Type} [DecidableEq κ] (m : List (κ × α)) (k : κ) (v : α)
    (h : containsKey k m = false) :
    lookupAssoc k (m ++ [(k, v)]) = some v := by
  induction m with
  | nil => simp [lookupAssoc, List.find?]
  | cons p rest ih =>
    rw [containsKey_false_iff] at h
    have hk : p.fst ≠ k := h p (List.mem_cons_self p rest)
    rw [List.cons_append, show p = (p.fst, p.snd) from rfl, lookupAssoc_cons, if_neg hk]
    apply ih
    rw [containsKey_false_iff]
    exact fun q hq => h q (List.mem_cons_of_mem _ hq)

theorem cache_set_lookup (c : TaskCache) (r : TaskRequest) (resp : TaskResponse)
    (now : ℚ) (hroom : c.entries.length < c.max_items)
    (hmem : ∀ l, c.sizeOfFn l ≤ c.max_memory_bytes) :
    lookupAssoc (generateKey r) (c.set r resp now).entries =
      some ⟨resp, now⟩ ∧
    (c.set r resp now).ttl_seconds = c.ttl_seconds := by
  unfold TaskCache.set TaskCache.evictIfNeeded
  by_cases hc : containsKey (generateKey r) c.entries
  · simp only [hc, if_true, if_pos]
    have hlen : (c.entries.map (fun p =>
        if p.fst = generateKey r then (generateKey r, (⟨resp, now⟩ : CacheEntry)) else p)).length
        ≤ c.max_items := by
      rw [List.length_map]
      exact le_of_lt hroom
    rw [evictByCount_of_le _ _ hlen, evictByMemory_of_le _ _ _ (hmem _)]
    exact ⟨lookup_map_update c.entries (generateKey r) ⟨resp, now⟩ hc, trivial⟩
  · simp only [hc, if_false, Bool.false_eq_true]
    have hlen : (c.entries ++ [(generateKey r, (⟨resp, now⟩ : CacheEntry))]).length
        ≤ c.max_items := by
      rw [List.length_append]
      simpa using hroom
    rw [evictByCount_of_le _ _ hlen, evictByMemory_of_le _ _ _ (hmem _)]
    refine ⟨lookup_append_new c.entries (generateKey r) ⟨resp, now⟩ ?_, trivial⟩
    exact Bool.eq_false_iff.mpr hc

/-- C8: after `set(request, response)` at time `t₀`, a `get(request)` at a
time `t` with age `t - t₀` below `ttl_seconds` returns the stored response;
once the age exceeds `ttl_seconds`, `get` returns nothing and removes the
stale entry, so the key is gone from the resulting cache state.  The
hypotheses keep `set`'s eviction pass from firing (the cache is below its
item and memory limits), which is orthogonal to TTL behaviour. -/
theorem c8_cache_ttl_roundtrip (c : TaskCache) (r : TaskRequest) (resp : TaskResponse)
    (t₀ t : ℚ) (hroom : c.entries.length < c.max_items)
    (hmem : ∀ l, c.sizeOfFn l ≤ c.max_memory_bytes) :
    (t - t₀ < c.ttl_seconds → ((c.set r resp t₀).get r t).1 = some resp) ∧
    (c.ttl_seconds < t - t₀ →
      ((c.set r resp t₀).get r t).1 = none ∧
      containsKey (generateKey r) ((c.set r resp t₀).get r t).2.entries = false) := by
  obtain ⟨hl, httl⟩ := cache_set_lookup c r resp t₀ hroom hmem
  constructor
  · intro hfresh
    unfold TaskCache.get
    simp only [hl]
    rw [httl, if_pos hfresh]
  · intro hstale
    have hnotfresh : ¬ t - t₀ < (c.set r resp t₀).ttl_seconds := by
      rw [httl]
      exact lt_asymm hstale
    unfold TaskCache.get
    simp only [hl]
    rw [if_neg hnotfresh]
    refine ⟨rfl, ?_⟩
    rw [containsKey_false_iff]
    intro p hp
    have := List.of_mem_filter hp
    simpa using this

/-- C8 witness: a fresh get 100 seconds after insertion returns the stored
response; a get 5000 seconds after insertion (ttl 3600) returns nothing. -/
theorem c8_cache_ttl_roundtrip_witness :
    cacheDemo.entries.length < cacheDemo.max_items ∧
    ((cacheDemo.set reqX respW1 0).get reqX 100).1 = some respW1 ∧
    ((cacheDemo.set reqX respW1 0).get reqX 5000).1 = none := by
  refine ⟨by decide, ?_, ?_⟩
  · exact (c8_cache_ttl_roundtrip cacheDemo reqX respW1 0 100 (by decide)
      (fun _ => Nat.zero_le _)).1 (by decide)
  · exact ((c8_cache_ttl_roundtrip cacheDemo reqX respW1 0 5000 (by decide)
      (fun _ => Nat.zero_le _)).2 (by decide)).1

/-! ## C10 — a cache hit returns the stored response unchanged -/

theorem cache_get_miss (c : TaskCache) (r : TaskRequest) (now : ℚ)
    (h : lookupAssoc (generateKey r) c.entries = none) :
    c.get r now = (none, c) := by
  unfold TaskCache.get
  simp only [h]

theorem cache_get_hit (c : TaskCache) (r : TaskRequest) (now : ℚ) (e : CacheEntry)
    (h : lookupAssoc (generateKey r) c.entries = some e)
    (hfresh : now - e.timestamp < c.ttl_seconds) :
    (c.get r now).1 = some e.response := by
  unfold TaskCache.get
  simp only [h]
  rw [if_pos hfresh]

/-- C10: on a cache hit the stateless sub-agent returns the stored response
object unchanged.  For two requests with equal `task_type`, `objective` and
structurally equal payloads but different `task_id`s, executing the second
request after the first completed and was cached (within the TTL) returns the
first request's response — in particular a response carrying the first
request's `task_id`, not the second's. -/
theorem c10_cache_hit_returns_stored (c : TaskCache) (llm : TaskRequest → LlmOutcome)
    (name capability : String) (r1 r2 : TaskRequest) (t1 t2 : ℚ)
    (res : Option String) (conf : ℚ)
    (htype : r2.task_type = r1.task_type) (hobj : r2.objective = r1.objective)
    (hdata : canonicalData r2.data = canonicalData r1.data)
    (hdepres : r2.dependency_results = r1.dependency_results)
    (hmiss : lookupAssoc (generateKey r1) c.entries = none)
    (hllm : llm r1 = .success res conf)
    (hroom : c.entries.length < c.max_items)
    (hmem : ∀ l, c.sizeOfFn l ≤ c.max_memory_bytes)
    (hfresh : t2 - t1 < c.ttl_seconds) :
    (statelessExecute (statelessExecute c llm name capability r1 t1).2
        llm name capability r2 t2).1 =
      (statelessExecute c llm name capability r1 t1).1 ∧
    (statelessExecute (statelessExecute c llm name capability r1 t1).2
        llm name capability r2 t2).1.task_id = r1.task_id ∧
    (r1.task_id ≠ r2.task_id →
      (statelessExecute (statelessExecute c llm name capability r1 t1).2
          llm name capability r2 t2).1.task_id ≠ r2.task_id) := by
  set resp1 : TaskResponse :=
    { task_id := r1.task_id, status := .complete, result := res,
      confidence := conf, metadata := [.agentInfo name capability] } with hresp1
  have hfirst : statelessExecute c llm name capability r1 t1 =
      (resp1, c.set r1 resp1 t1) := by
    unfold statelessExecute
    rw [cache_get_miss c r1 t1 hmiss, hllm]
  have hkey : generateKey r2 = generateKey r1 := by
    unfold generateKey
    rw [htype, hobj, hdata, hdepres]
  obtain ⟨hl, httl⟩ := cache_set_lookup c r1 resp1 t1 hroom hmem
  have hhit : ((c.set r1 resp1 t1).get r2 t2).1 = some resp1 := by
    have hl2 : lookupAssoc (generateKey r2) (c.set r1 resp1 t1).entries =
        some ⟨resp1, t1⟩ := by
      rw [hkey]
      exact hl
    exact cache_get_hit _ r2 t2 ⟨resp1, t1⟩ hl2 (by rw [httl]; exact hfresh)
  have hsecond : (statelessExecute (c.set r1 resp1 t1) llm name capability r2 t2).1 =
      resp1 := by
    unfold statelessExecute
    cases hget : TaskCache.get (c.set r1 resp1 t1) r2 t2 with
    | mk o c2 =>
      have ho : o = some resp1 := by rw [← hhit, hget]
      subst ho
      rfl
  rw [hfirst]
  refine ⟨hsecond, by rw [hsecond], fun hne => by rw [hsecond]; exact hne⟩

/-- C10 witness: `reqX2` differs from `reqX` only in `task_id`; after `reqX`
completes and is cached at time 0, executing `reqX2` at time 100 returns the
cached response tagged with `reqX`'s id `"x"`, not `"x2"`. -/
theorem c10_cache_hit_returns_stored_witness :
    (statelessExecute (statelessExecute cacheDemo llmDemo "agent1" "research" reqX 0).2
        llmDemo "agent1" "research" reqX2 100).1 =
      (statelessExecute cacheDemo llmDemo "agent1" "research" reqX 0).1 ∧
    (statelessExecute (statelessExecute cacheDemo llmDemo "agent1" "research" reqX 0).2
        llmDemo "agent1" "research" reqX2 100).1.task_id = reqX.task_id ∧
    (reqX.task_id ≠ reqX2.task_id →
      (statelessExecute (statelessExecute cacheDemo llmDemo "agent1" "research" reqX 0).2
          llmDemo "agent1" "research" reqX2 100).1.task_id ≠ reqX2.task_id) :=
  c10_cache_hit_returns_stored cacheDemo llmDemo "agent1" "research" reqX reqX2 0 100
    (some "r") 1 rfl rfl rfl rfl rfl rfl (by decide) (fun _ => Nat.zero_le _) (by decide)

/-! ## C6 — sequential execution: input order, unmet-dependency halt, fail-fast -/

theorem contains_iff_mem (l : List String) (a : String) :
    l.contains a = true ↔ a ∈ l := by
  simp [List.contains_eq_any_beq]

theorem contains_eq_false_iff_not_mem (l : List String) (a : String) :
    l.contains a = false ↔ a ∉ l := by
  rw [Bool.eq_false_iff, Ne, contains_iff_mem]

theorem deps_met_of_filter_empty (deps completed : List String)
    (h : (deps.filter (fun dep => !completed.contains dep)).isEmpty = true) :
    ∀ dep ∈ deps, dep ∈ completed := by
  intro dep hdep
  by_contra hnc
  have hcf : completed.contains dep = false :=
    (contains_eq_false_iff_not_mem completed dep).mpr hnc
  have hmem : dep ∈ deps.filter (fun d => !completed.contains d) :=
    List.mem_filter.mpr ⟨hdep, by rw [hcf]; rfl⟩
  cases hfe : deps.filter (fun d => !completed.contains d) with
  | nil =>
    rw [hfe] at hmem
    exact absurd hmem (List.not_mem_nil dep)
  | cons a l =>
    rw [hfe] at h
    exact absurd h (by simp)

theorem seqEnrich_task_id (task : TaskRequest) (m : List (String × Option String)) :
    (seqEnrich task m).task_id = task.task_id := by
  unfold seqEnrich
  split
  · rfl
  · rfl

theorem completedPrefix_nil (tasks : List TaskRequest) :
    completedPrefix tasks [] = [] := by
  unfold completedPrefix
  simp

theorem completedPrefix_cons (task : TaskRequest) (rest : List TaskRequest)
    (response : TaskResponse) (rs : List TaskResponse) :
    completedPrefix (task :: rest) (response :: rs) =
      if response.status = .complete then task.objective :: completedPrefix rest rs
      else completedPrefix rest rs := by
  unfold completedPrefix
  rw [List.zip_cons_cons]
  by_cases hc : response.status = .complete <;> simp [hc]

theorem seqGo_halt (exec : TaskRequest → TaskResponse) (task : TaskRequest)
    (rest : List TaskRequest) (completed : List String)
    (taskResults : List (String × Option String))
    (h : (task.dependencies.filter (fun dep => !completed.contains dep)).isEmpty = false) :
    executeSequentialGo exec (task :: rest) completed taskResults = [] := by
  unfold executeSequentialGo
  simp only []
  rw [h]
  rfl

theorem seqGo_fail (exec : TaskRequest → TaskResponse) (task : TaskRequest)
    (rest : List TaskRequest) (completed : List String)
    (taskResults : List (String × Option String))
    (h : (task.dependencies.filter (fun dep => !completed.contains dep)).isEmpty = true)
    (hf : (exec (seqEnrich task taskResults)).status = .failed) :
    executeSequentialGo exec (task :: rest) completed taskResults =
      [exec (seqEnrich task taskResults)] := by
  unfold executeSequentialGo
  simp only []
  rw [h, hf]
  rfl

theorem seqGo_cont (exec : TaskRequest → TaskResponse) (task : TaskRequest)
    (rest : List TaskRequest) (completed : List String)
    (taskResults : List (String × Option String))
    (h : (task.dependencies.filter (fun dep => !completed.contains dep)).isEmpty = true)
    (hf : (exec (seqEnrich task taskResults)).status ≠ .failed) :
    executeSequentialGo exec (task :: rest) completed taskResults =
      exec (seqEnrich task taskResults) ::
        executeSequentialGo exec rest
          (if (exec (seqEnrich task taskResults)).status = .complete
            then task.objective :: completed else completed)
          (if (exec (seqEnrich task taskResults)).status = .complete
            then (task.objective, (exec (seqEnrich task taskResults)).result) :: taskResults
            else taskResults) := by
  conv_lhs => unfold executeSequentialGo
  simp only []
  rw [h]
  rw [if_neg (show ¬((!true) = true) by simp), if_neg hf]

theorem executeSequentialGo_spec (exec : TaskRequest → TaskResponse)
    (hexec : ∀ t, (exec t).task_id = t.task_id) :
    ∀ (tasks : List TaskRequest) (completed : List String)
      (taskResults : List (String × Option String)),
      SeqSpec tasks completed (executeSequentialGo exec tasks completed taskResults) := by
  intro tasks
  induction tasks with
  | nil =>
    intro completed taskResults
    refine ⟨Nat.le_refl _, ?_, ?_, ?_, ?_⟩
    · intro i hi
      exact absurd hi (by simp [executeSequentialGo])
    · intro i hi
      exact absurd hi (by simp [executeSequentialGo])
    · intro i hi
      exact absurd hi (by simp [executeSequentialGo])
    · intro hlt
      exact absurd hlt (by simp [executeSequentialGo])
  | cons task rest ih =>
    intro completed taskResults
    by_cases hu : (task.dependencies.filter (fun dep => !completed.contains dep)).isEmpty
    · -- dependencies satisfied: the task runs
      by_cases hf : (exec (seqEnrich task taskResults)).status = .failed
      · -- fail-fast halt right after recording the failed response
        rw [seqGo_fail exec task rest completed taskResults hu hf]
        refine ⟨by simp, ?_, ?_, ?_, ?_⟩
        · intro i hi hi'
          have h0 : i = 0 := by
            simp only [List.length_singleton] at hi
            omega
          subst h0
          simp [hexec, seqEnrich_task_id]
        · intro i hi hi' dep hdep
          have h0 : i = 0 := by
            simp only [List.length_singleton] at hi
            omega
          subst h0
          exact Or.inl (deps_met_of_filter_empty task.dependencies completed hu dep hdep)
        · intro i hi hlt
          simp only [List.length_singleton] at hlt
          omega
        · intro _
          exact Or.inl ⟨by simp, by simpa using hf⟩
      · -- the run continues
        rw [seqGo_cont exec task rest completed taskResults hu hf]
        obtain ⟨ihlen, ihid, ihdeps, ihfail, ihhalt⟩ := ih
          (if (exec (seqEnrich task taskResults)).status = .complete
            then task.objective :: completed else completed)
          (if (exec (seqEnrich task taskResults)).status = .complete
            then (task.objective, (exec (seqEnrich task taskResults)).result) :: taskResults
            else taskResults)
        refine ⟨by simpa using Nat.succ_le_succ ihlen, ?_, ?_, ?_, ?_⟩
        · intro i hi hi'
          cases i with
          | zero => simp [hexec, seqEnrich_task_id]
          | succ n =>
            simp only [List.length_cons, Nat.succ_lt_succ_iff] at hi hi'
            simpa using ihid n hi hi'
        · intro i hi hi' dep hdep
          cases i with
          | zero =>
            exact Or.inl (deps_met_of_filter_empty task.dependencies completed hu dep hdep)
          | succ n =>
            simp only [List.length_cons, Nat.succ_lt_succ_iff] at hi hi'
            have hdep' : dep ∈ (rest.get ⟨n, hi'⟩).dependencies := by simpa using hdep
            rcases ihdeps n hi hi' dep hdep' with hcomp | hpref
            · by_cases hc : (exec (seqEnrich task taskResults)).status = .complete
              · rw [if_pos hc] at hcomp
                rcases List.mem_cons.mp hcomp with heq | hmem
                · right
                  rw [List.take_succ_cons, List.take_succ_cons, completedPrefix_cons,
                    if_pos hc, heq]
                  exact List.mem_cons_self _ _
                · exact Or.inl hmem
              · rw [if_neg hc] at hcomp
                exact Or.inl hcomp
            · right
              rw [List.take_succ_cons, List.take_succ_cons, completedPrefix_cons]
              by_cases hc : (exec (seqEnrich task taskResults)).status = .complete
              · rw [if_pos hc]
                exact List.mem_cons_of_mem _ hpref
              · rwa [if_neg hc]
        · intro i hi hlt
          cases i with
          | zero => simpa using hf
          | succ n =>
            simp only [List.length_cons, Nat.succ_lt_succ_iff] at hi hlt
            simpa using ihfail n hi hlt
        · intro hlen
          simp only [List.length_cons, Nat.succ_lt_succ_iff] at hlen
          rcases ihhalt hlen with ⟨hne, hlast⟩ | ⟨hn, dep, hdep, hnc, hncp⟩
          · left
            refine ⟨by simp, ?_⟩
            rwa [List.getLast_cons hne]
          · right
            refine ⟨by simpa using Nat.succ_lt_succ hn, dep, by simpa using hdep, ?_, ?_⟩
            · intro hmem
              apply hnc
              by_cases hc : (exec (seqEnrich task taskResults)).status = .complete
              · rw [if_pos hc]
                exact List.mem_cons_of_mem _ hmem
              · rwa [if_neg hc]
            · intro hmem
              rw [completedPrefix_cons] at hmem
              by_cases hc : (exec (seqEnrich task taskResults)).status = .complete
              · rw [if_pos hc] at hmem
                rcases List.mem_cons.mp hmem with heq | hmem'
                · apply hnc
                  rw [if_pos hc, heq]
                  exact List.mem_cons_self _ _
                · exact hncp hmem'
              · rw [if_neg hc] at hmem
                exact hncp hmem
    · -- an unsatisfied dependency: halt with no response for this task
      rw [seqGo_halt exec task rest completed taskResults (Bool.eq_false_iff.mpr hu)]
      refine ⟨by simp, ?_, ?_, ?_, ?_⟩
      · intro i hi
        exact absurd hi (by simp)
      · intro i hi
        exact absurd hi (by simp)
      · intro i hi
        exact absurd hi (by simp)
      · intro _
        right
        refine ⟨by simp, ?_⟩
        have hne : task.dependencies.filter (fun dep => !completed.contains dep) ≠ [] := by
          intro hnil
          exact hu (by rw [hnil]; rfl)
        obtain ⟨dep, hdep⟩ := List.exists_mem_of_ne_nil _ hne
        have hdep' := List.mem_filter.mp hdep
        refine ⟨dep, by simpa using hdep'.1, ?_, ?_⟩
        · have : completed.contains dep = false := by
            have := hdep'.2
            simpa using this
          exact (contains_eq_false_iff_not_mem completed dep).mp this
        · rw [completedPrefix_nil]
          exact List.not_mem_nil dep

/-- C6: sequential execution runs the tasks one at a time in input order
(each response's `task_id` matches the task at the same position); a task is
only ever executed when every one of its declared prerequisites is already in
the completed set accumulated so far, so whenever a task's prerequisites are
not all met, execution halts immediately, returning exactly the responses
gathered so far — the unmet task contributes no response and no later task
runs, and a truncated run is caused exactly by a trailing `failed` response
or by an unmet prerequisite of the first unprocessed task; and a `failed`
response halts execution immediately after being recorded, so only the last
response can be `failed`. -/
theorem c6_sequential_halting (exec : TaskRequest → TaskResponse)
    (tasks : List TaskRequest) (hexec : ∀ t, (exec t).task_id = t.task_id) :
    SeqSpec tasks [] (executeSequential exec tasks) :=
  executeSequentialGo_spec exec hexec tasks [] []

/-- C6 witness: the `X`,`Y`,`Z` scenario under an executor that fails `X` —
the run records `X`'s failed response and halts. -/
theorem c6_sequential_halting_witness :
    SeqSpec [reqX, reqY, reqZ] [] (executeSequential execDemo [reqX, reqY, reqZ]) :=
  c6_sequential_halting execDemo [reqX, reqY, reqZ]
    (fun t => by unfold execDemo; split <;> rfl)

/-! ## C1 — missing-dependency short-circuit in parallel execution -/

/-- C1, evaluation at the failing input (code bug): in the spec's own
scenario `{X: [], Y: [X], Z: [X]}` with `X` failing, `execute_parallel` does
not short-circuit `Y` and `Z`.  Because `X` produced no completed result,
`completed_results` is empty at level 1, the guard
`if dependencies and completed_results:` skips the whole missing-dependency
check, and `Y` and `Z` are prepared unenriched and dispatched to workers:
their returned responses are the executor's `complete` responses (with the
`"executed"` marker payload), not `failed` missing-dependency responses.
(Note also that when the short-circuit does fire the produced `error_type` is
`"DependencyError"`, the code-level spelling of the spec's
`MissingDependencyData` kind.) -/
theorem c1_missing_dep_guard_skipped :
    (executeParallel execDemo id [reqX, reqY, reqZ]).map
        (fun r => (r.task_id, r.status, r.error_type, r.result)) =
      [("x", .failed, some "ExecutionError", none),
       ("y", .complete, none, some "executed"),
       ("z", .complete, none, some "executed")] := by decide

/-! ## C2 — one response per submitted task -/

/-- C2, counterexample: with the cyclic task set `{A: [B], B: [A]}`,
`_group_by_dependency_level` assigns no task to any level (it logs and
`break`s), so `execute_parallel` returns zero responses for two submitted
tasks — they are silently dropped, contradicting the claim that every
submitted task yields exactly one response even for cyclic graphs. -/
theorem c2_counterexample :
    (executeParallel execDemo id [reqA, reqB]).length = 0 ∧
    [reqA, reqB].length = 2 := by decide

/-! ## C3 — leveler: levels partition the tasks and respect dependencies -/

theorem buildTaskEntries_go (tasks : List TaskRequest) :
    ∀ acc : List TaskRequest,
      ((acc ++ tasks).map TaskRequest.objective).Nodup →
      tasks.foldl (fun acc t =>
        if acc.any (fun u => decide (u.objective = t.objective)) then
          acc.map (fun u => if u.objective = t.objective then t else u)
        else acc ++ [t]) acc = acc ++ tasks := by
  induction tasks with
  | nil =>
    intro acc _
    simp
  | cons t ts ih =>
    intro acc hnd
    rw [List.foldl_cons]
    have hany : acc.any (fun u => decide (u.objective = t.objective)) = false := by
      rw [List.any_eq_false]
      intro u hu
      simp only [decide_eq_true_eq]
      intro hobj
      have hmd := hnd
      rw [List.map_append, List.nodup_append] at hmd
      obtain ⟨-, -, hdisj⟩ := hmd
      exact hdisj (List.mem_map_of_mem _ hu)
        (by rw [hobj]; exact List.mem_map_of_mem _ (List.mem_cons_self t ts))
    rw [hany]
    simp only [Bool.false_eq_true, if_false]
    have hnd' : (((acc ++ [t]) ++ ts).map TaskRequest.objective).Nodup := by
      rw [List.append_assoc]
      simpa using hnd
    rw [ih (acc ++ [t]) hnd']
    simp

theorem buildTaskEntries_eq (tasks : List TaskRequest)
    (hnd : (tasks.map TaskRequest.objective).Nodup) :
    buildTaskEntries tasks = tasks := by
  unfold buildTaskEntries
  simpa using buildTaskEntries_go tasks [] (by simpa using hnd)

theorem mem_levelStep (entries : List TaskRequest) (A : Finset String) (t : TaskRequest) :
    t ∈ levelStep entries A ↔
      t ∈ entries ∧ t.objective ∉ A ∧ ∀ dep ∈ t.dependencies, dep ∈ A := by
  unfold levelStep
  rw [List.mem_filter]
  simp

theorem filter_unassigned_nil (tasks : List TaskRequest) (A : Finset String)
    (hnd : (tasks.map TaskRequest.objective).Nodup)
    (hsub : ∀ x ∈ A, x ∈ tasks.map TaskRequest.objective)
    (hcard : tasks.length ≤ A.card) :
    tasks.filter (fun t => decide (t.objective ∉ A)) = [] := by
  have hAsub : A ⊆ (tasks.map TaskRequest.objective).toFinset := by
    intro x hx
    rw [List.mem_toFinset]
    exact hsub x hx
  have hcard2 : ((tasks.map TaskRequest.objective).toFinset).card ≤ A.card := by
    rw [List.toFinset_card_of_nodup hnd, List.length_map]
    exact hcard
  have hA : A = (tasks.map TaskRequest.objective).toFinset :=
    Finset.eq_of_subset_of_card_le hAsub hcard2
  rw [List.filter_eq_nil_iff]
  intro t ht
  simp only [decide_eq_true_eq, not_not]
  rw [hA, List.mem_toFinset]
  exact List.mem_map_of_mem _ ht

theorem levelizeGo_spec (tasks : List TaskRequest) (rank : String → Nat)
    (hnd : (tasks.map TaskRequest.objective).Nodup)
    (hclosed : ∀ t ∈ tasks, ∀ d ∈ t.dependencies, ∃ u ∈ tasks, u.objective = d)
    (hrank : ∀ t ∈ tasks, ∀ d ∈ t.dependencies, rank d < rank t.objective) :
    ∀ (fuel : Nat) (A : Finset String),
      tasks.length ≤ A.card + fuel →
      (∀ x ∈ A, x ∈ tasks.map TaskRequest.objective) →
      List.Perm (levelizeGo tasks tasks.length fuel A).flatten
        (tasks.filter (fun t => decide (t.objective ∉ A))) ∧
      (∀ i (hi : i < (levelizeGo tasks tasks.length fuel A).length),
        ∀ t ∈ (levelizeGo tasks tasks.length fuel A).get ⟨i, hi⟩,
        ∀ d ∈ t.dependencies,
          d ∈ A ∨ ∃ u ∈ ((levelizeGo tasks tasks.length fuel A).take i).flatten,
            u.objective = d) := by
  intro fuel
  induction fuel with
  | zero =>
    intro A hfuel hsub
    have hnil : levelizeGo tasks tasks.length 0 A = [] := rfl
    rw [hnil, filter_unassigned_nil tasks A hnd hsub (by omega)]
    exact ⟨by simp, fun i hi => absurd hi (by simp)⟩
  | succ fuel ih =>
    intro A hfuel hsub
    by_cases hlt : A.card < tasks.length
    · -- the loop makes progress: the minimal-rank unassigned task is schedulable
      have hex : ∃ t ∈ tasks, t.objective ∉ A := by
        by_contra hall
        push_neg at hall
        have hsub2 : (tasks.map TaskRequest.objective).toFinset ⊆ A := by
          intro x hx
          rw [List.mem_toFinset] at hx
          obtain ⟨t, ht, rfl⟩ := List.mem_map.mp hx
          exact hall t ht
        have hcard3 := Finset.card_le_card hsub2
        rw [List.toFinset_card_of_nodup hnd, List.length_map] at hcard3
        omega
      have hSne : ((tasks.filter (fun t => decide (t.objective ∉ A))).toFinset).Nonempty := by
        obtain ⟨t, ht, hto⟩ := hex
        exact ⟨t, by simp [List.mem_filter, ht, hto]⟩
      obtain ⟨t₀, ht₀S, hmin⟩ := Finset.exists_min_image _ (fun t => rank t.objective) hSne
      rw [List.mem_toFinset, List.mem_filter] at ht₀S
      obtain ⟨ht₀tasks, ht₀obj⟩ := ht₀S
      rw [decide_eq_true_eq] at ht₀obj
      have ht₀cur : t₀ ∈ levelStep tasks A := by
        rw [mem_levelStep]
        refine ⟨ht₀tasks, ht₀obj, ?_⟩
        intro d hd
        obtain ⟨u, hu, huobj⟩ := hclosed t₀ ht₀tasks d hd
        by_cases huA : u.objective ∈ A
        · rwa [huobj] at huA
        · have huS : u ∈ (tasks.filter (fun t => decide (t.objective ∉ A))).toFinset := by
            simp [List.mem_filter, hu, huA]
          have hle := hmin u huS
          have hlt2 := hrank t₀ ht₀tasks d hd
          rw [huobj] at hle
          omega
      have hne : levelStep tasks A ≠ [] := by
        intro h
        rw [h] at ht₀cur
        exact absurd ht₀cur (List.not_mem_nil t₀)
      have hstep : levelizeGo tasks tasks.length (fuel + 1) A =
          levelStep tasks A :: levelizeGo tasks tasks.length fuel
            (A ∪ ((levelStep tasks A).map TaskRequest.objective).toFinset) := by
        conv_lhs => unfold levelizeGo
        simp only []
        rw [if_pos hlt, if_neg (fun h => hne (List.isEmpty_iff.mp h))]
      have hA'card : A.card <
          (A ∪ ((levelStep tasks A).map TaskRequest.objective).toFinset).card := by
        apply Finset.card_lt_card
        rw [Finset.ssubset_iff_of_subset Finset.subset_union_left]
        refine ⟨t₀.objective, Finset.mem_union_right _ ?_, ht₀obj⟩
        rw [List.mem_toFinset]
        exact List.mem_map_of_mem _ ht₀cur
      have hsub' : ∀ x ∈ A ∪ ((levelStep tasks A).map TaskRequest.objective).toFinset,
          x ∈ tasks.map TaskRequest.objective := by
        intro x hx
        rcases Finset.mem_union.mp hx with hx | hx
        · exact hsub x hx
        · rw [List.mem_toFinset] at hx
          obtain ⟨u, hu, rfl⟩ := List.mem_map.mp hx
          exact List.mem_map_of_mem _ ((mem_levelStep tasks A u).mp hu).1
      obtain ⟨ihperm, ihdeps⟩ := ih
        (A ∪ ((levelStep tasks A).map TaskRequest.objective).toFinset)
        (by omega) hsub'
      -- split filter (∉ A) into the schedulable part (= the level) and the rest (= ∉ A')
      have h1 : levelStep tasks A =
          (tasks.filter (fun t => decide (t.objective ∉ A))).filter
            (fun t => decide (∀ d ∈ t.dependencies, d ∈ A)) := by
        unfold levelStep
        rw [List.filter_filter]
        apply List.filter_congr
        intro t _
        rw [Bool.decide_and]
        rw [Bool.and_comm]
      have hcurof : ∀ t ∈ tasks, (t.objective ∈
          ((levelStep tasks A).map TaskRequest.objective).toFinset ↔
            t ∈ levelStep tasks A) := by
        intro t ht
        constructor
        · intro hmem
          rw [List.mem_toFinset] at hmem
          obtain ⟨u, hu, huo⟩ := List.mem_map.mp hmem
          have hut : u = t :=
            List.inj_on_of_nodup_map hnd ((mem_levelStep tasks A u).mp hu).1 ht huo
          rwa [← hut]
        · intro hmem
          rw [List.mem_toFinset]
          exact List.mem_map_of_mem _ hmem
      have h2 : tasks.filter (fun t => decide (t.objective ∉
            (A ∪ ((levelStep tasks A).map TaskRequest.objective).toFinset))) =
          (tasks.filter (fun t => decide (t.objective ∉ A))).filter
            (fun t => !(decide (∀ d ∈ t.dependencies, d ∈ A))) := by
        rw [List.filter_filter]
        apply List.filter_congr
        intro t ht
        have hiff : t.objective ∉
            (A ∪ ((levelStep tasks A).map TaskRequest.objective).toFinset) ↔
            t.objective ∉ A ∧ ¬(∀ d ∈ t.dependencies, d ∈ A) := by
          rw [Finset.mem_union, not_or, hcurof t ht, mem_levelStep]
          constructor
          · rintro ⟨hnA, hncur⟩
            exact ⟨hnA, fun hall => hncur ⟨ht, hnA, hall⟩⟩
          · rintro ⟨hnA, hnall⟩
            exact ⟨hnA, fun hcur => hnall hcur.2.2⟩
        rw [decide_eq_decide.mpr hiff]
        · simp only [Bool.decide_and, decide_not]
          rw [Bool.and_comm]
        · infer_instance
      rw [hstep]
      constructor
      · rw [List.flatten_cons]
        refine (List.Perm.append_left (levelStep tasks A) ihperm).trans ?_
        rw [h2]
        conv_lhs => rw [h1]
        exact List.filter_append_perm _ _
      · intro i hi t ht d hd
        cases i with
        | zero =>
          left
          simp only [List.get_eq_getElem, List.getElem_cons_zero] at ht
          exact ((mem_levelStep tasks A t).mp ht).2.2 d hd
        | succ n =>
          simp only [List.length_cons, Nat.succ_lt_succ_iff] at hi
          simp only [List.get_eq_getElem, List.getElem_cons_succ] at ht
          have hres := ihdeps n hi t (by simpa using ht) d hd
          rcases hres with hA | ⟨u, hu, huo⟩
          · rcases Finset.mem_union.mp hA with h | h
            · exact Or.inl h
            · right
              rw [List.mem_toFinset] at h
              obtain ⟨u, hu, huo⟩ := List.mem_map.mp h
              refine ⟨u, ?_, huo⟩
              rw [List.take_succ_cons, List.flatten_cons]
              exact List.mem_append_left _ hu
          · right
            refine ⟨u, ?_, huo⟩
            rw [List.take_succ_cons, List.flatten_cons]
            exact List.mem_append_right _ hu
    · -- all tasks already assigned: the loop exits with no further levels
      have hnil : levelizeGo tasks tasks.length (fuel + 1) A = [] := by
        conv_lhs => unfold levelizeGo
        simp only []
        rw [if_neg hlt]
      rw [hnil, filter_unassigned_nil tasks A hnd hsub (Nat.le_of_not_lt hlt)]
      exact ⟨by simp, fun i hi => absurd hi (by simp)⟩

/-- C3: for an acyclic dependency graph over the task set (witnessed by a
rank function decreasing along prerequisites), with prerequisites referring
to objectives of the set and distinct task identifiers (objectives), the
leveler's output levels concatenate to a permutation of the input task set,
and every task sits at a level strictly greater than the level of each of
its declared prerequisites. -/
theorem c3_levelize_partition_and_order (tasks : List TaskRequest) (rank : String → Nat)
    (hnd : (tasks.map TaskRequest.objective).Nodup)
    (hclosed : ∀ t ∈ tasks, ∀ d ∈ t.dependencies, ∃ u ∈ tasks, u.objective = d)
    (hrank : ∀ t ∈ tasks, ∀ d ∈ t.dependencies, rank d < rank t.objective) :
    List.Perm (groupByDependencyLevel tasks).flatten tasks ∧
    (∀ i j (hi : i < (groupByDependencyLevel tasks).length)
       (hj : j < (groupByDependencyLevel tasks).length),
       ∀ t ∈ (groupByDependencyLevel tasks).get ⟨i, hi⟩,
       ∀ u ∈ (groupByDependencyLevel tasks).get ⟨j, hj⟩,
         u.objective ∈ t.dependencies → j < i) := by
  have hgroup : groupByDependencyLevel tasks =
      levelizeGo tasks tasks.length (tasks.length + 1) ∅ := by
    unfold groupByDependencyLevel
    rw [buildTaskEntries_eq tasks hnd]
  obtain ⟨hperm, hdeps⟩ :=
    levelizeGo_spec tasks rank hnd hclosed hrank (tasks.length + 1) ∅
      (by simp) (by simp)
  have hfilter : tasks.filter (fun t => decide (t.objective ∉ (∅ : Finset String))) =
      tasks := by
    rw [List.filter_eq_self]
    intro t _
    simp
  rw [hfilter] at hperm
  constructor
  · rw [hgroup]
    exact hperm
  · rw [hgroup]
    intro i j hi hj t ht u hu hdep
    set L := levelizeGo tasks tasks.length (tasks.length + 1) ∅ with hL
    by_contra hji
    push_neg at hji
    rcases hdeps i hi t ht u.objective hdep with h0 | ⟨w, hw, hwo⟩
    · exact absurd h0 (Finset.not_mem_empty _)
    · -- w lies in levels before i, u in level j with i ≤ j: the nodup
      -- objectives of the flattened levels make this impossible
      have hnodupflat : (L.flatten.map TaskRequest.objective).Nodup :=
        (hperm.map TaskRequest.objective).nodup_iff.mpr hnd
      have hsplit : (L.take i).flatten ++ (L.drop i).flatten = L.flatten := by
        rw [← List.flatten_append, List.take_append_drop]
      have hudrop : u ∈ (L.drop i).flatten := by
        rw [List.mem_flatten]
        refine ⟨L.get ⟨j, hj⟩, ?_, hu⟩
        have hj' : j - i < (L.drop i).length := by
          rw [List.length_drop]
          omega
        have : (L.drop i).get ⟨j - i, hj'⟩ = L.get ⟨j, hj⟩ := by
          simp only [List.get_eq_getElem, List.getElem_drop]
          congr 1
          omega
        rw [← this]
        exact List.get_mem _ _ hj'
      rw [← hsplit, List.map_append, List.nodup_append] at hnodupflat
      obtain ⟨-, -, hdisj⟩ := hnodupflat
      exact hdisj (List.mem_map_of_mem _ hw)
        (by rw [hwo]; exact List.mem_map_of_mem _ hudrop)

/-- C3 witness: the scenario tasks `{X: [], Y: [X], Z: [X]}` with the rank
function `X ↦ 0`, others `↦ 1`. -/
theorem c3_levelize_partition_and_order_witness :
    List.Perm (groupByDependencyLevel [reqX, reqY, reqZ]).flatten [reqX, reqY, reqZ] ∧
    (∀ i j (hi : i < (groupByDependencyLevel [reqX, reqY, reqZ]).length)
       (hj : j < (groupByDependencyLevel [reqX, reqY, reqZ]).length),
       ∀ t ∈ (groupByDependencyLevel [reqX, reqY, reqZ]).get ⟨i, hi⟩,
       ∀ u ∈ (groupByDependencyLevel [reqX, reqY, reqZ]).get ⟨j, hj⟩,
         u.objective ∈ t.dependencies → j < i) :=
  c3_levelize_partition_and_order [reqX, reqY, reqZ] rankDemo
    (by decide) (by decide) (by decide)

/-! ## C2 (amended) — one response per task when the leveler covers all tasks -/

theorem parallelPrep_ids (cr : List (String × Option String)) (level : List TaskRequest) :
    List.Perm ((parallelPrep cr level).1.map TaskResponse.task_id ++
               (parallelPrep cr level).2.map TaskRequest.task_id)
      (level.map TaskRequest.task_id) := by
  induction level with
  | nil => simp [parallelPrep]
  | cons task rest ih =>
    cases hpp : parallelPrep cr rest with
    | mk rs ps =>
      rw [hpp] at ih
      simp only [parallelPrep, hpp]
      by_cases h1 : (task.dependencies.isEmpty || cr.isEmpty) = true
      · rw [if_pos h1]
        simp only [List.map_cons]
        exact List.perm_middle.trans (ih.cons task.task_id)
      · rw [if_neg h1]
        by_cases h2 : (!(task.dependencies.filter
            (fun dep => !containsKey dep cr)).isEmpty) = true
        · rw [if_pos h2]
          simp only [List.map_cons, List.cons_append]
          exact ih.cons task.task_id
        · rw [if_neg h2]
          simp only [List.map_cons]
          exact List.perm_middle.trans (ih.cons task.task_id)

theorem workerPool_resp_ids (exec : TaskRequest → TaskResponse)
    (hexec : ∀ t, (exec t).task_id = t.task_id)
    (tasks order : List TaskRequest) :
    (workerPoolRun exec tasks order).map (fun p => p.2.task_id) =
      tasks.map TaskRequest.task_id := by
  unfold workerPoolRun
  simp only []
  rw [foldl_cons_eq_reverse_map, List.append_nil, List.map_map]
  apply List.map_congr_left
  intro t _
  simp only [Function.comp]
  cases hlk : lookupAssoc t.task_id
      (order.reverse.map (fun u => (u.task_id, (u, exec u)))) with
  | none => rfl
  | some pr =>
    have hfind := hlk
    unfold lookupAssoc at hfind
    cases hf : (order.reverse.map (fun u => (u.task_id, (u, exec u)))).find?
        (fun p => decide (p.fst = t.task_id)) with
    | none =>
      rw [hf] at hfind
      exact absurd hfind (by simp)
    | some q =>
      rw [hf] at hfind
      have hfind2 : q.snd = pr := by simpa using hfind
      have hqpred : q.fst = t.task_id := by simpa using List.find?_some hf
      have hqmem := List.mem_of_find?_eq_some hf
      rw [List.mem_map] at hqmem
      obtain ⟨u, _, hq⟩ := hqmem
      rw [← hq] at hqpred hfind2
      rw [← hfind2]
      simpa [hexec u] using hqpred

theorem runLevel_ids (exec : TaskRequest → TaskResponse)
    (completion : List TaskRequest → List TaskRequest)
    (hexec : ∀ t, (exec t).task_id = t.task_id)
    (acc : List TaskResponse × List (String × Option String))
    (level : List TaskRequest) :
    List.Perm ((runLevel exec completion acc level).1.map TaskResponse.task_id)
      (acc.1.map TaskResponse.task_id ++ level.map TaskRequest.task_id) := by
  unfold runLevel
  simp only []
  by_cases hp : (parallelPrep acc.2 level).2.isEmpty = true
  · rw [if_pos hp]
    have hids := parallelPrep_ids acc.2 level
    rw [List.isEmpty_iff] at hp
    rw [hp] at hids
    simp only [List.map_nil, List.append_nil] at hids
    rw [List.map_append]
    exact List.Perm.append_left _ hids
  · rw [if_neg hp]
    rw [List.map_append, List.map_append, List.map_map]
    have hpool : ((workerPoolRun exec (parallelPrep acc.2 level).2
        (completion (parallelPrep acc.2 level).2)).map
          (TaskResponse.task_id ∘ Prod.snd)) =
        (parallelPrep acc.2 level).2.map TaskRequest.task_id := by
      rw [show (TaskResponse.task_id ∘ Prod.snd :
          TaskRequest × TaskResponse → String) = fun p => p.2.task_id from rfl]
      exact workerPool_resp_ids exec hexec _ _
    rw [hpool, List.append_assoc]
    exact List.Perm.append_left _ (parallelPrep_ids acc.2 level)

theorem foldLevels_ids (exec : TaskRequest → TaskResponse)
    (completion : List TaskRequest → List TaskRequest)
    (hexec : ∀ t, (exec t).task_id = t.task_id) :
    ∀ (levels : List (List TaskRequest))
      (acc : List TaskResponse × List (String × Option String)),
      List.Perm ((levels.foldl (runLevel exec completion) acc).1.map TaskResponse.task_id)
        (acc.1.map TaskResponse.task_id ++ levels.flatten.map TaskRequest.task_id) := by
  intro levels
  induction levels with
  | nil =>
    intro acc
    simp
  | cons level rest ih =>
    intro acc
    rw [List.foldl_cons]
    refine (ih (runLevel exec completion acc level)).trans ?_
    rw [List.flatten_cons, List.map_append, ← List.append_assoc]
    exact List.Perm.append_right _ (runLevel_ids exec completion hexec acc level)

theorem groupLevels_flatten_perm (tasks : List TaskRequest) (rank : String → Nat)
    (hnd : (tasks.map TaskRequest.objective).Nodup)
    (hclosed : ∀ t ∈ tasks, ∀ d ∈ t.dependencies, ∃ u ∈ tasks, u.objective = d)
    (hrank : ∀ t ∈ tasks, ∀ d ∈ t.dependencies, rank d < rank t.objective) :
    List.Perm (groupByDependencyLevel tasks).flatten tasks := by
  have hgroup : groupByDependencyLevel tasks =
      levelizeGo tasks tasks.length (tasks.length + 1) ∅ := by
    unfold groupByDependencyLevel
    rw [buildTaskEntries_eq tasks hnd]
  obtain ⟨hperm, -⟩ :=
    levelizeGo_spec tasks rank hnd hclosed hrank (tasks.length + 1) ∅ (by simp) (by simp)
  have hfilter : tasks.filter (fun t => decide (t.objective ∉ (∅ : Finset String))) =
      tasks := by
    rw [List.filter_eq_self]
    intro t _
    simp
  rw [hgroup]
  rw [hfilter] at hperm
  exact hperm

/-- C2 (amended): when the dependency graph lets the leveler assign every
task to a level — the graph is acyclic (rank function), its prerequisites
refer to objectives of the task set, and objectives are distinct — parallel
execution produces exactly one response per submitted task: the multiset of
response `task_id`s is a permutation of the submitted `task_id`s.  (The
unamended claim also covered cyclic graphs, where tasks are in fact silently
dropped; see the counterexample.) -/
theorem c2_parallel_one_response_per_task (exec : TaskRequest → TaskResponse)
    (completion : List TaskRequest → List TaskRequest)
    (tasks : List TaskRequest) (rank : String → Nat)
    (hnd : (tasks.map TaskRequest.objective).Nodup)
    (hclosed : ∀ t ∈ tasks, ∀ d ∈ t.dependencies, ∃ u ∈ tasks, u.objective = d)
    (hrank : ∀ t ∈ tasks, ∀ d ∈ t.dependencies, rank d < rank t.objective)
    (hexec : ∀ t, (exec t).task_id = t.task_id) :
    List.Perm ((executeParallel exec completion tasks).map TaskResponse.task_id)
      (tasks.map TaskRequest.task_id) := by
  unfold executeParallel
  by_cases he : tasks.isEmpty = true
  · rw [if_pos he]
    rw [List.isEmpty_iff] at he
    rw [he]
    simp
  · rw [if_neg he]
    refine (foldLevels_ids exec completion hexec (groupByDependencyLevel tasks)
      ([], [])).trans ?_
    simp only [List.map_nil, List.nil_append]
    exact (groupLevels_flatten_perm tasks rank hnd hclosed hrank).map TaskRequest.task_id

/-- C2 (amended) witness: the acyclic `{X: [], Y: [X], Z: [X]}` scenario with
a failing `X` still yields exactly one response per task. -/
theorem c2_parallel_one_response_per_task_witness :
    List.Perm ((executeParallel execDemo id [reqX, reqY, reqZ]).map TaskResponse.task_id)
      ([reqX, reqY, reqZ].map TaskRequest.task_id) :=
  c2_parallel_one_response_per_task execDemo id [reqX, reqY, reqZ] rankDemo
    (by decide) (by decide) (by decide)
    (fun t => by unfold execDemo; split <;> rfl)

/-! ## C4 — cycle detection and the sequential-to-parallel fallback -/

theorem key_mem_nodes (g : Graph) (a : String) (h : a ∈ g.map Prod.fst) :
    a ∈ nodesOf g := by
  unfold nodesOf allNodesList
  rw [List.mem_toFinset]
  exact List.mem_append_left _ h

theorem depsOf_entry (g : Graph) (a : String) (deps : List String)
    (h : lookupAssoc a g = some deps) :
    ∃ p : String × List String, p ∈ g ∧ p.fst = a ∧ p.snd = deps := by
  unfold lookupAssoc at h
  cases hf : g.find? (fun p => decide (p.fst = a)) with
  | none =>
    rw [hf] at h
    exact absurd h (by simp)
  | some q =>
    rw [hf] at h
    have hq : q.snd = deps := by simpa using h
    have hpred : q.fst = a := by simpa using List.find?_some hf
    exact ⟨q, List.mem_of_find?_eq_some hf, hpred, hq⟩

theorem edge_key (g : Graph) (a b : String) (h : EdgeG g a b) :
    a ∈ g.map Prod.fst := by
  unfold EdgeG depsOf at h
  cases hlk : lookupAssoc a g with
  | none =>
    rw [hlk] at h
    exact absurd h (by simp)
  | some deps =>
    obtain ⟨p, hp, hpa, -⟩ := depsOf_entry g a deps hlk
    rw [← hpa]
    exact List.mem_map_of_mem _ hp

theorem depsOf_subset_nodes (g : Graph) (a b : String) (h : b ∈ depsOf g a) :
    b ∈ nodesOf g := by
  unfold depsOf at h
  cases hlk : lookupAssoc a g with
  | none =>
    rw [hlk] at h
    exact absurd h (by simp)
  | some deps =>
    rw [hlk] at h
    simp only [Option.getD_some] at h
    obtain ⟨p, hp, -, hpd⟩ := depsOf_entry g a deps hlk
    unfold nodesOf allNodesList
    rw [List.mem_toFinset]
    apply List.mem_append_right
    rw [List.mem_flatten]
    refine ⟨deps, ?_, h⟩
    rw [← hpd]
    exact List.mem_map_of_mem _ hp

theorem dfsInv_reach (g : Graph) (V st : List String) (hinv : DfsInv g V st)
    (v : String) (hv : v ∈ V) (hvs : v ∉ st) (x : String) (hr : ReachG g v x) :
    x ∈ V ∧ x ∉ st := by
  induction hr with
  | refl => exact ⟨hv, hvs⟩
  | tail h1 h2 ih =>
    obtain ⟨hb, hbs⟩ := ih
    exact (hinv _ hb hbs).1 _ h2

theorem hasCycleFrom_stack (g : Graph) (fuel : Nat) (node : String)
    (V st : List String) (h : node ∈ st) :
    hasCycleFrom g (fuel + 1) node V st = (true, V) := by
  unfold hasCycleFrom
  rw [if_pos h]

theorem hasCycleFrom_visited (g : Graph) (fuel : Nat) (node : String)
    (V st : List String) (h1 : node ∉ st) (h2 : node ∈ V) :
    hasCycleFrom g (fuel + 1) node V st = (false, V) := by
  unfold hasCycleFrom
  rw [if_neg h1, if_pos h2]

theorem hasCycleFrom_fresh (g : Graph) (fuel : Nat) (node : String)
    (V st : List String) (h1 : node ∉ st) (h2 : node ∉ V) :
    hasCycleFrom g (fuel + 1) node V st =
      hasCycleDeps g fuel (depsOf g node) (node :: V) (node :: st) := by
  unfold hasCycleFrom
  rw [if_neg h1, if_neg h2]

theorem hasCycleDeps_nil (g : Graph) (fuel : Nat) (V st : List String) :
    hasCycleDeps g fuel [] V st = (false, V) := by
  unfold hasCycleDeps
  rfl

theorem hasCycleDeps_cons_true (g : Graph) (fuel : Nat) (dep : String)
    (rest V st V1 : List String)
    (h : hasCycleFrom g fuel dep V st = (true, V1)) :
    hasCycleDeps g fuel (dep :: rest) V st = (true, V1) := by
  unfold hasCycleDeps
  rw [h]

theorem hasCycleDeps_cons_false (g : Graph) (fuel : Nat) (dep : String)
    (rest V st V1 : List String)
    (h : hasCycleFrom g fuel dep V st = (false, V1)) :
    hasCycleDeps g fuel (dep :: rest) V st = hasCycleDeps g fuel rest V1 st := by
  conv_lhs => unfold hasCycleDeps
  rw [h]

theorem dfs_sound (g : Graph) : ∀ fuel, DfsFromSpec g fuel ∧ DfsDepsSpec g fuel := by
  intro fuel
  induction fuel with
  | zero =>
    constructor
    · intro node V st _ hcard _
      exact absurd hcard (by omega)
    · intro deps V st _ hcard _
      exact absurd hcard (by omega)
  | succ fuel ih =>
    have hFrom : DfsFromSpec g (fuel + 1) := by
      intro node V st hnode hcard hinv
      by_cases hst : node ∈ st
      · constructor
        · intro _
          rw [hasCycleFrom_stack g fuel node V st hst]
        · intro V2 hEq
          rw [hasCycleFrom_stack g fuel node V st hst] at hEq
          simp at hEq
      · by_cases hvis : node ∈ V
        · constructor
          · rintro ⟨s, hs, hreach⟩
            obtain ⟨-, hns⟩ := dfsInv_reach g V st hinv node hvis hst s hreach
            exact absurd hs hns
          · intro V2 hEq
            rw [hasCycleFrom_visited g fuel node V st hst hvis] at hEq
            injection hEq with h1 h2
            subst h2
            exact ⟨hinv, List.Subset.refl _, hvis, hst⟩
        · have hfreshEq := hasCycleFrom_fresh g fuel node V st hst hvis
          have hinv2 : DfsInv g (node :: V) (node :: st) := by
            intro v hv hvns
            have hvne : v ≠ node := fun h => hvns (h ▸ List.mem_cons_self _ _)
            have hvV : v ∈ V := by
              rcases List.mem_cons.mp hv with h | h
              · exact absurd h hvne
              · exact h
            have hvst : v ∉ st := fun h => hvns (List.mem_cons_of_mem _ h)
            obtain ⟨hedges, hnocyc⟩ := hinv v hvV hvst
            refine ⟨?_, hnocyc⟩
            intro w hw
            obtain ⟨hwV, hwst⟩ := hedges w hw
            refine ⟨List.mem_cons_of_mem _ hwV, ?_⟩
            intro hwns
            rcases List.mem_cons.mp hwns with h | h
            · exact hvis (h ▸ hwV)
            · exact hwst h
          have hmemsd : node ∈ nodesOf g \ V.toFinset := by
            rw [Finset.mem_sdiff, List.mem_toFinset]
            exact ⟨hnode, hvis⟩
          have hcard2 : (nodesOf g \ (node :: V).toFinset).card < fuel := by
            have hre : nodesOf g \ (node :: V).toFinset
                = (nodesOf g \ V.toFinset).erase node := by
              rw [List.toFinset_cons, Finset.sdiff_insert]
            have hpos : 0 < (nodesOf g \ V.toFinset).card :=
              Finset.card_pos.mpr ⟨node, hmemsd⟩
            rw [hre, Finset.card_erase_of_mem hmemsd]
            omega
          have hdeps : ∀ d ∈ depsOf g node, d ∈ nodesOf g :=
            fun d hd => depsOf_subset_nodes g node d hd
          have hspec := ih.2 (depsOf g node) (node :: V) (node :: st) hdeps hcard2 hinv2
          constructor
          · rintro ⟨s, hs, hreach⟩
            have hsne : node ≠ s := fun h => hst (h ▸ hs)
            rw [hfreshEq]
            rcases Relation.ReflTransGen.cases_head hreach with h | ⟨d, hedge, hreach2⟩
            · exact absurd h hsne
            · exact hspec.1 ⟨d, hedge, s, List.mem_cons_of_mem _ hs, hreach2⟩
          · intro V2 hEq
            rw [hfreshEq] at hEq
            obtain ⟨hinvV2, hsub, hall⟩ := hspec.2 V2 hEq
            refine ⟨?_, ?_, hsub (List.mem_cons_self _ _), hst⟩
            · intro v hvV2 hvst
              by_cases hvn : v = node
              · subst hvn
                constructor
                · intro w hw
                  obtain ⟨hwV2, hwnst⟩ := hall w hw
                  exact ⟨hwV2, fun hmem => hwnst (List.mem_cons_of_mem _ hmem)⟩
                · rintro ⟨w, hwe, hwr⟩
                  obtain ⟨hwV2, hwnst⟩ := hall w hwe
                  obtain ⟨-, hnodenst⟩ :=
                    dfsInv_reach g V2 (v :: st) hinvV2 w hwV2 hwnst v hwr
                  exact hnodenst (List.mem_cons_self _ _)
              · have hvnotin : v ∉ node :: st := by
                  intro hmem
                  rcases List.mem_cons.mp hmem with h | h
                  · exact hvn h
                  · exact hvst h
                obtain ⟨hedges, hnocyc⟩ := hinvV2 v hvV2 hvnotin
                refine ⟨?_, hnocyc⟩
                intro w hw
                obtain ⟨hwV2, hwnst⟩ := hedges w hw
                exact ⟨hwV2, fun hmem => hwnst (List.mem_cons_of_mem _ hmem)⟩
            · intro a ha
              exact hsub (List.mem_cons_of_mem _ ha)
    have hDeps : DfsDepsSpec g (fuel + 1) := by
      intro deps
      induction deps with
      | nil =>
        intro V st _ _ hinv
        constructor
        · rintro ⟨d, hd, -⟩
          exact absurd hd (List.not_mem_nil d)
        · intro V2 hEq
          rw [hasCycleDeps_nil] at hEq
          injection hEq with h1 h2
          subst h2
          refine ⟨hinv, List.Subset.refl _, ?_⟩
          intro d hd
          exact absurd hd (List.not_mem_nil d)
      | cons dep rest ihrest =>
        intro V st hd hcard hinv
        have hfrom := hFrom dep V st (hd dep (List.mem_cons_self _ _)) hcard hinv
        cases hb : hasCycleFrom g (fuel + 1) dep V st with
        | mk b V1 =>
          cases b with
          | true =>
            have hEq := hasCycleDeps_cons_true g (fuel + 1) dep rest V st V1 hb
            constructor
            · intro _
              rw [hEq]
            · intro V2 h2
              rw [hEq] at h2
              simp at h2
          | false =>
            have hEq := hasCycleDeps_cons_false g (fuel + 1) dep rest V st V1 hb
            obtain ⟨hinv1, hsub1, hdep1, hdepst⟩ := hfrom.2 V1 hb
            have hcard1 : (nodesOf g \ V1.toFinset).card < fuel + 1 := by
              have hsubF : V.toFinset ⊆ V1.toFinset := by
                intro a ha
                rw [List.mem_toFinset] at ha ⊢
                exact hsub1 ha
              have hmono := Finset.card_le_card
                (Finset.sdiff_subset_sdiff (Finset.Subset.refl (nodesOf g)) hsubF)
              omega
            have hrest := ihrest V1 st
              (fun d hdm => hd d (List.mem_cons_of_mem _ hdm)) hcard1 hinv1
            constructor
            · rintro ⟨d, hdm, s, hs, hreach⟩
              rcases List.mem_cons.mp hdm with h | h
              · subst h
                have htr := hfrom.1 ⟨s, hs, hreach⟩
                rw [hb] at htr
                simp at htr
              · rw [hEq]
                exact hrest.1 ⟨d, h, s, hs, hreach⟩
            · intro V2 h2
              rw [hEq] at h2
              obtain ⟨hinv2, hsub2, hall2⟩ := hrest.2 V2 h2
              refine ⟨hinv2, ?_, ?_⟩
              · intro a ha
                exact hsub2 (hsub1 ha)
              · intro d hdm
                rcases List.mem_cons.mp hdm with h | h
                · subst h
                  exact ⟨hsub2 hdep1, hdepst⟩
                · exact hall2 d h
    exact ⟨hFrom, hDeps⟩

theorem hasCycleStep_true (g : Graph) (fuel : Nat) (W : List String) (k : String) :
    hasCycleStep g fuel ((true : Bool), W) k = (true, W) := rfl

theorem hasCycleStep_visited (g : Graph) (fuel : Nat) (k : String) (V : List String)
    (h : k ∈ V) :
    hasCycleStep g fuel ((false : Bool), V) k = (false, V) := by
  unfold hasCycleStep
  rw [if_neg (by simp), if_pos h]

theorem hasCycleStep_fresh (g : Graph) (fuel : Nat) (k : String) (V : List String)
    (h : k ∉ V) :
    hasCycleStep g fuel ((false : Bool), V) k = hasCycleFrom g fuel k V [] := by
  unfold hasCycleStep
  rw [if_neg (by simp), if_neg h]

theorem fold_true_absorb (g : Graph) (fuel : Nat) (keys : List String)
    (W : List String) :
    keys.foldl (hasCycleStep g fuel) ((true : Bool), W) = (true, W) := by
  induction keys with
  | nil => rfl
  | cons k rest ih =>
    rw [List.foldl_cons, hasCycleStep_true]
    exact ih

theorem hasCircular_fold (g : Graph) (fuel : Nat)
    (hspec : DfsFromSpec g fuel)
    (hfuel : ∀ W : List String, (nodesOf g \ W.toFinset).card < fuel) :
    ∀ (keys V : List String), (∀ k ∈ keys, k ∈ nodesOf g) → DfsInv g V [] →
    (keys.foldl (hasCycleStep g fuel) ((false : Bool), V)).1 = false →
    ∃ V2, DfsInv g V2 [] ∧ V ⊆ V2 ∧ ∀ k ∈ keys, k ∈ V2 := by
  intro keys
  induction keys with
  | nil =>
    intro V _ hinv _
    refine ⟨V, hinv, List.Subset.refl _, ?_⟩
    intro k hk
    exact absurd hk (List.not_mem_nil k)
  | cons k rest ih =>
    intro V hk hinv h
    rw [List.foldl_cons] at h
    by_cases hkV : k ∈ V
    · rw [hasCycleStep_visited g fuel k V hkV] at h
      obtain ⟨V2, hinv2, hsub2, hall2⟩ :=
        ih V (fun d hdm => hk d (List.mem_cons_of_mem _ hdm)) hinv h
      refine ⟨V2, hinv2, hsub2, ?_⟩
      intro d hdm
      rcases List.mem_cons.mp hdm with hdk | hdr
      · subst hdk
        exact hsub2 hkV
      · exact hall2 d hdr
    · rw [hasCycleStep_fresh g fuel k V hkV] at h
      cases hb : hasCycleFrom g fuel k V [] with
      | mk b V1 =>
        rw [hb] at h
        cases b with
        | true =>
          rw [fold_true_absorb] at h
          simp at h
        | false =>
          obtain ⟨hinv1, hsub1, hk1, -⟩ :=
            (hspec k V [] (hk k (List.mem_cons_self _ _)) (hfuel V) hinv).2 V1 hb
          obtain ⟨V2, hinv2, hsub2, hall2⟩ :=
            ih V1 (fun d hdm => hk d (List.mem_cons_of_mem _ hdm)) hinv1 h
          refine ⟨V2, hinv2, ?_, ?_⟩
          · intro a ha
            exact hsub2 (hsub1 ha)
          · intro d hdm
            rcases List.mem_cons.mp hdm with hdk | hdr
            · subst hdk
              exact hsub2 hk1
            · exact hall2 d hdr

/-- C4: for every dependency graph containing a cycle,
`has_circular_dependencies` reports `True`, and when the requested strategy is
sequential `analyze_dependencies` switches the strategy to parallel and
replaces the graph with empty dependency lists for every objective — a repair
performed while the decomposition is still being assembled, before any task is
handed to the orchestration engine. -/
theorem c4_cycle_detected_and_fallback (g : Graph) (objectives : List String)
    (h : HasCycleProp g) :
    hasCircularDependencies g = true ∧
    applyCycleFallback .sequential objectives g =
      (.parallel, objectives.eraseDups.map (fun o => (o, ([] : List String)))) := by
  have hcirc : hasCircularDependencies g = true := by
    by_contra hfalse
    rw [Bool.not_eq_true] at hfalse
    unfold hasCircularDependencies at hfalse
    simp only [] at hfalse
    obtain ⟨V2, hinv2, -, hall⟩ :=
      hasCircular_fold g ((allNodesList g).length + 1)
        (dfs_sound g ((allNodesList g).length + 1)).1
        (fun W => by
          have h1 : (nodesOf g \ W.toFinset).card ≤ (nodesOf g).card :=
            Finset.card_le_card Finset.sdiff_subset
          have h2 : (nodesOf g).card ≤ (allNodesList g).length :=
            List.toFinset_card_le _
          omega)
        (g.map Prod.fst) []
        (fun k hk => key_mem_nodes g k hk)
        (fun v hv => absurd hv (List.not_mem_nil v))
        hfalse
    obtain ⟨a, b, hedge, hreach⟩ := h
    have haV2 : a ∈ V2 := hall a (edge_key g a b hedge)
    exact (hinv2 a haV2 (List.not_mem_nil a)).2 ⟨b, hedge, hreach⟩
  refine ⟨hcirc, ?_⟩
  unfold applyCycleFallback
  rw [if_pos ⟨rfl, hcirc⟩]

theorem c4_cycle_detected_and_fallback_witness :
    HasCycleProp [("A", ["B"]), ("B", ["A"])] ∧
    hasCircularDependencies [("A", ["B"]), ("B", ["A"])] = true ∧
    applyCycleFallback .sequential ["A", "B"] [("A", ["B"]), ("B", ["A"])] =
      (.parallel, [("A", []), ("B", [])]) := by
  have hcyc : HasCycleProp [("A", ["B"]), ("B", ["A"])] :=
    ⟨"A", "B", by decide, Relation.ReflTransGen.single (by decide)⟩
  have hmain := c4_cycle_detected_and_fallback [("A", ["B"]), ("B", ["A"])]
    ["A", "B"] hcyc
  refine ⟨hcyc, hmain.1, ?_⟩
  rw [hmain.2]
  rfl

end AiPilot
